import Mathlib

/-!
# The publish benchmark harness of `main.go`

A shallow embedding of the benchmark driver: the latency store (`metrics`, `metrics.add`),
the percentile estimator (`percentiles`), the work split done by the spawn loop of
`runNATS` / `runKafka` / `runPulsar`, the worker goroutines, and the final summary.

Modelling conventions.

* Go `int` and `time.Duration` values are Lean `Int`s.  Integer division and remainder are
  the truncating `Int.tdiv` / `Int.tmod` of Go.  The two products that can leave the machine
  range, `total*sz` and `conc * 2`, are wrapped to `intBits` bits (two's complement);
  `intBits` is 64 on the usual targets and 32 on 32-bit ones.
* `float64` arithmetic is idealised by exact arithmetic in `ℚ`; `int(x)` truncates toward zero.
  For the index computation of `percentiles` the idealisation loses nothing:
  `percentilesF64_eq` shows that evaluation with binary64 rounding at every operation gives
  the same result for every slice of up to `2^44` samples.
* Slices are lists; slice indexing is `List.getD`.
* Everything outside the process is an oracle carried by `Env`: the outcome and blocking time
  of every publish call, the order in which the scheduler lets goroutines take their next
  loop iteration, the clock, and the outcome of the backend set-up calls.
* One loop iteration of a worker (publish, then either the call of `log.Fatal` or the three
  updates of `m`) is one atomic step; the goroutines are interleaved at that granularity, in
  any order. The spawn loop is run to its end before the first iteration is scheduled: a
  goroutine not started yet and one not scheduled yet have done the same, nothing.
* A goroutine that calls `log.Fatal` never runs again, but `os.Exit` takes effect only later:
  the other goroutines go on for `Env.exitDelay` more iterations (succeeding and appending,
  or failing too), and when the process goes away a goroutine may hold a call that has
  returned but whose outcome it has not acted on yet (`Env.cut`).
* `log.Fatal` and a panic end the process; nothing is printed after them.
-/

set_option linter.unusedVariables false

namespace Bench

/-! ## Latency store -/

/-- Go `time.Duration`: a signed count of nanoseconds. -/
abbrev Duration := Int

/-- The `metrics` struct (the mutex is implicit in the atomicity of a step). -/
structure metrics where
  sent : Nat
  acks : Nat
  start : Int
  durations : List Duration
deriving DecidableEq

/-- The method `(*metrics).add`: append one duration under the lock. -/
def metrics.add (m : metrics) (d : Duration) : metrics :=
  { m with durations := m.durations ++ [d] }

/-- The call `atomic.AddUint64(&x, 1)` on a `uint64`. -/
def addUint64 (x : Nat) : Nat := (x + 1) % 2 ^ 64

/-! ## Percentile estimator -/

/-- The swap `tmp[a], tmp[b] = tmp[b], tmp[a]`. -/
def swap (tmp : List Duration) (a b : Nat) : List Duration :=
  (tmp.set a (tmp.getD b 0)).set b (tmp.getD a 0)

/-- The inner loop `for j > 0 && tmp[j-1] > tmp[j] { swap; j-- }`, started at `j`. -/
def insertLoop (tmp : List Duration) : Nat → List Duration
  | 0 => tmp
  | j + 1 =>
    if tmp.getD j 0 > tmp.getD (j + 1) 0 then insertLoop (swap tmp j (j + 1)) j else tmp

/-- The outer loop `for i := 1; i < len(tmp); i++ { j := i; ... }`. -/
def sortLoop (tmp : List Duration) : List Duration :=
  (List.range' 1 (tmp.length - 1)).foldl insertLoop tmp

/-- The conversion `int(x)` of a `float64`: truncation toward zero. -/
def float64ToInt (x : ℚ) : Int := if 0 ≤ x then Int.floor x else Int.ceil x

/-- The value `int(float64(len(tmp)-1) * p / 100.0)`, before the two clamps. -/
def rawIdx (len : Nat) (p : ℚ) : Int :=
  float64ToInt ((((len : Int) - 1 : Int) : ℚ) * p / 100)

/-- The closure `idx` of `percentiles`, for a slice `tmp` of length `len`. -/
def idx (len : Nat) (p : ℚ) : Int :=
  let n := rawIdx len p
  let n := if n < 0 then 0 else n
  let n := if n ≥ (len : Int) then (len : Int) - 1 else n
  n

/-- The function `percentiles`. -/
def percentiles (ds : List Duration) : Duration × Duration :=
  if ds.length = 0 then (0, 0)
  else
    let tmp := sortLoop ds
    (tmp.getD (idx tmp.length 50).toNat 0, tmp.getD (idx tmp.length 95).toNat 0)

/-! ## Work split -/

/-- The value of `n` when iteration `i` of the spawn loop reaches `if n == 0`. -/
def share (total conc : Int) (i : Int) : Int :=
  let per := Int.tdiv total conc
  let rem := Int.tmod total conc
  let n := per
  let n := if i < rem then n + 1 else n
  n

/-- The values of `n` over the iterations `i = 0, ..., conc-1` of the spawn loop. -/
def partition (total conc : Int) : List Int :=
  (List.range conc.toNat).map (fun (i : Nat) => share total conc (i : Int))

/-! ## Workers -/

/-- What one publish call does: whether it returned an error, and how long it blocked
(the value `time.Since(t0)` would have right after the call). -/
structure PublishResult where
  err : Bool
  took : Duration
deriving DecidableEq

/-- A worker goroutine: the loop index `i` it was started at, its count `n`, its loop
counter `j`, and whether it has called `log.Fatal` (from which it never returns). -/
structure Worker where
  i : Nat
  n : Int
  j : Int
  inFatal : Bool
deriving DecidableEq

/-- A worker can run another iteration: it is not inside `log.Fatal` and `j < n` holds. -/
def Worker.live (w : Worker) : Bool := !w.inFatal && decide (w.j < w.n)

/-- One issued publish call: the worker, its loop counter, and what the call did. -/
structure Call where
  worker : Nat
  iter : Int
  res : PublishResult
deriving DecidableEq

/-- The goroutines the spawn loop starts: iterations with `n == 0` start none. -/
def spawn (total conc : Int) : List Worker :=
  (List.range conc.toNat).filterMap (fun (i : Nat) =>
    let n := share total conc (i : Int)
    if n = 0 then none else some { i := i, n := n, j := 0, inFatal := false })

/-- Process state during the worker phase: the shared `m`, the started goroutines, the
publish calls that have returned so far (oldest first), whether some goroutine has called
`log.Fatal`, and how many more iterations the others run before `os.Exit` takes effect
(read only once `fatal` is set). -/
structure State where
  m : metrics
  ws : List Worker
  log : List Call
  fatal : Bool
  grace : Nat
deriving DecidableEq

/-- The goroutines that still have an iteration to run, with their position in `ws`. -/
def liveWorkers (ws : List Worker) : List (Nat × Worker) :=
  ws.enum.filter (fun e => e.2.live)

/-- The scheduler's choice: the worker that runs its next iteration, by choice number `k`. -/
def pick (ws : List Worker) (k : Nat) : Option (Nat × Worker) :=
  (liveWorkers ws)[k % (liveWorkers ws).length]?

/-- One loop iteration of the chosen worker: publish; on an error the worker calls
`log.Fatal(err)` and never runs again, else it bumps `sent` and `acks`, does
`m.add(time.Since(t0))`, and advances its loop counter. Nothing runs once `os.Exit` has
taken effect. -/
def step (pub : Nat → Int → PublishResult) (k : Nat) (s : State) : State :=
  if s.fatal ∧ s.grace = 0 then s
  else
    match pick s.ws k with
    | none => s
    | some (p, w) =>
      let res := pub w.i w.j
      let log := s.log ++ [{ worker := w.i, iter := w.j, res := res }]
      let grace := if s.fatal then s.grace - 1 else s.grace
      if res.err then
        { s with ws := s.ws.set p { w with inFatal := true }, log := log, fatal := true,
                 grace := grace }
      else
        let m := { s.m with sent := addUint64 s.m.sent }
        let m := { m with acks := addUint64 m.acks }
        let m := m.add res.took
        { s with m := m, ws := s.ws.set p { w with j := w.j + 1 }, log := log,
                 grace := grace }

/-- Loop iterations still to run for one goroutine. -/
def Worker.todo (w : Worker) : Nat := if w.inFatal then 0 else (w.n - w.j).toNat

/-- Loop iterations the goroutines still have to run. -/
def work (ws : List Worker) : Nat :=
  (ws.map Worker.todo).sum

/-- The calls that have returned in a goroutine which has not acted on the outcome when the
process goes away: at most one per goroutine that could still run, as `cut` tells. -/
def cutLog (pub : Nat → Int → PublishResult) (cut : Nat → Bool) (ws : List Worker) :
    List Call :=
  (ws.filter (fun w => w.live && cut w.i)).map
    (fun w => { worker := w.i, iter := w.j, res := pub w.i w.j })

/-- The worker phase run for `fuel` scheduler steps; the choice at each step is
`sched` applied to the number of calls issued so far. -/
def exec (pub : Nat → Int → PublishResult) (sched : Nat → Nat) : Nat → State → State
  | 0, s => s
  | fuel + 1, s => exec pub sched fuel (step pub (sched s.log.length) s)

/-! ## Summary and run -/

/-- The quantities printed by the three `fmt.Printf` calls at the end of a run. -/
structure Report where
  msgs : Int
  size : Int
  conc : Int
  throughput : ℚ
  bandwidth : ℚ
  p50 : Duration
  p95 : Duration
deriving DecidableEq

/-- Ways the process ends without printing a summary. -/
inductive Fatal
  | serversRequired
  | unknownSystem
  | setupError
  | payloadPanic
  | divideByZero
  | publishError
deriving DecidableEq

/-- How a run ends: the summary is printed, the process is killed, or `wg.Wait()` is
still waiting when the fuel is spent. -/
inductive Exit
  | report (r : Report)
  | fatal (f : Fatal)
  | blocked
deriving DecidableEq

/-- True exactly when the run printed its summary. -/
def Exit.isReport : Exit → Bool
  | .report _ => true
  | _ => false

/-- A finished run: the process state at its end and the way it ended. -/
structure RunEnd where
  st : State
  exit : Exit
deriving DecidableEq

/-- Everything outside the process. -/
structure Env where
  intBits : Nat
  pub : Nat → Int → PublishResult
  sched : Nat → Nat
  exitDelay : Nat
  cut : Nat → Bool
  startNs : Int
  endNs : Int
  connectErr : Bool
  sessionErr : Bool
  allocLimit : Nat
  randRead : Nat → Option (List Nat)

/-- Machine `int` result of an arithmetic operation: two's complement wrap to `bits` bits. -/
def wrapInt (bits : Nat) (x : Int) : Int := Int.bmod x (2 ^ bits)

/-- The arguments of the summary lines: `float64(total)/elapsed`,
`(float64(total*sz)/1e6)/elapsed`, and the two percentiles. -/
def summary (bits : Nat) (total sz conc : Int) (elapsed : ℚ) (ds : List Duration) : Report :=
  let p := percentiles ds
  { msgs := total, size := sz, conc := conc,
    throughput := (total : ℚ) / elapsed,
    bandwidth := ((wrapInt bits (total * sz) : Int) : ℚ) / 1000000 / elapsed,
    p50 := p.1, p95 := p.2 }

/-- The state before any goroutine exists. -/
def State.init (start : Int) (grace : Nat) : State :=
  { m := { sent := 0, acks := 0, start := start, durations := [] },
    ws := [], log := [], fatal := false, grace := grace }

/-- The process ends before the spawn loop. -/
def abort (f : Fatal) : RunEnd := { st := State.init 0 0, exit := .fatal f }

/-- The function `payload`: `make([]byte, size)` ends the process on a negative size and on
a size the runtime cannot allocate, and a failed `rand.Read` panics. -/
def payload (env : Env) (size : Int) : Except Fatal (List Nat) :=
  if size < 0 ∨ (env.allocLimit : Int) < size then .error .payloadPanic
  else
    match env.randRead size.toNat with
    | none => .error .payloadPanic
    | some b => .ok b

/-- The part shared by `runNATS`, `runKafka` and `runPulsar`, from `var m metrics` to the
last `fmt.Printf`: start the clock, split the work, start the goroutines, wait, summarise. -/
def bench (env : Env) (total sz conc : Int) : RunEnd :=
  let s0 := State.init env.startNs env.exitDelay
  if conc = 0 then { st := s0, exit := .fatal .divideByZero }
  else
    let ws := spawn total conc
    let s := exec env.pub env.sched (work ws) { s0 with ws := ws }
    if s.fatal then
      { st := { s with log := s.log ++ cutLog env.pub env.cut s.ws },
        exit := .fatal .publishError }
    else if s.ws.any Worker.live then { st := s, exit := .blocked }
    else
      let elapsed : ℚ := ((env.endNs - s.m.start : Int) : ℚ) / 1000000000
      { st := s, exit := .report (summary env.intBits total sz conc elapsed s.m.durations) }

/-- The function `runNATS`. The option `nats.PublishAsyncMaxPending(conc * 2)` makes
`nc.JetStream` return an error when its argument is below 1; `sessionErr` stands for
every other failure of that call. -/
def runNATS (env : Env) (servers subj : String) (total sz conc replicas : Int) : RunEnd :=
  if servers = "" then abort .serversRequired
  else if env.connectErr then abort .setupError
  else if wrapInt env.intBits (conc * 2) < 1 then abort .setupError
  else if env.sessionErr then abort .setupError
  else
    match payload env sz with
    | .error f => abort f
    | .ok _ => bench env total sz conc

/-- The function `runKafka`. -/
def runKafka (env : Env) (bootstrap topic : String) (total sz conc partitions : Int) :
    RunEnd :=
  if bootstrap = "" then abort .serversRequired
  else
    match payload env sz with
    | .error f => abort f
    | .ok _ => bench env total sz conc

/-- The function `runPulsar`. -/
def runPulsar (env : Env) (serviceURL topic : String) (total sz conc : Int)
    (tenant ns : String) : RunEnd :=
  if serviceURL = "" then abort .serversRequired
  else if env.connectErr then abort .setupError
  else if env.sessionErr then abort .setupError
  else
    match payload env sz with
    | .error f => abort f
    | .ok _ => bench env total sz conc

/-- The function `main`, after flag parsing: dispatch on `-system`. -/
def main (env : Env) (system servers topic : String) (messages size concurrency : Int)
    (partitions jsReplicas : Int) (pTenant pNs : String) : RunEnd :=
  if system = "nats" then runNATS env servers topic messages size concurrency jsReplicas
  else if system = "kafka" then runKafka env servers topic messages size concurrency partitions
  else if system = "pulsar" then
    runPulsar env servers topic messages size concurrency pTenant pNs
  else abort .unknownSystem

/-- An environment in which set-up and every publish call succeed; worker `w` blocks for
`100*w + j` nanoseconds on its call number `j`, and the clock runs for two seconds. -/
def envOk : Env :=
  { intBits := 64
    pub := fun w j => { err := false, took := 100 * (w : Int) + j }
    sched := fun t => 7 * t + 3
    exitDelay := 2
    cut := fun w => decide (w = 0)
    startNs := 0
    endNs := 2000000000
    connectErr := false
    sessionErr := false
    allocLimit := 2 ^ 40
    randRead := fun n => some (List.replicate n 0) }

/-- As `envOk`, except that the second call of every worker but worker 0 fails, and that
the other goroutines run three more iterations between the first `log.Fatal` and the end of
the process. -/
def envFail : Env :=
  { envOk with
    exitDelay := 3
    pub := fun w j => { err := decide (w ≠ 0 ∧ j = 1), took := 100 * (w : Int) + j } }

/-- The durations a worker has yet to record, if each of its remaining calls succeeds. -/
def pendingDur (pub : Nat → Int → PublishResult) (w : Worker) : List Duration :=
  (List.range w.todo).map (fun (t : Nat) => (pub w.i (w.j + (t : Int))).took)

/-- The durations all goroutines have yet to record, if every remaining call succeeds. -/
def pendingAll (pub : Nat → Int → PublishResult) (ws : List Worker) : List Duration :=
  ws.flatMap (pendingDur pub)

/-- IEEE 754 binary64 rounding of an exact value: to nearest on the grid of 53-bit
significands, ties to the even significand. Overflow and subnormal values do not occur in
`percentiles` and are not modelled. -/
def roundF64 (x : ℚ) : ℚ :=
  if x = 0 then 0
  else
    let u : ℚ := (2 : ℚ) ^ (Int.log 2 |x| - 52)
    let q : ℚ := x / u
    let f : Int := Int.floor q
    let m : Int :=
      if q - f < 1 / 2 then f
      else if 1 / 2 < q - f then f + 1
      else if f % 2 = 0 then f else f + 1
    (m : ℚ) * u

/-- The value `int(float64(len(tmp)-1) * p / 100.0)` with every operation rounded to
binary64. -/
def rawIdxF64 (len : Nat) (p : ℚ) : Int :=
  float64ToInt (roundF64 (roundF64 (roundF64 ((((len : Int) - 1 : Int) : ℚ)) * p) / 100))

/-- The closure `idx` with the index expression evaluated in binary64. -/
def idxF64 (len : Nat) (p : ℚ) : Int :=
  let n := rawIdxF64 len p
  let n := if n < 0 then 0 else n
  let n := if n ≥ (len : Int) then (len : Int) - 1 else n
  n

/-- The function `percentiles` with the index expression evaluated in binary64. -/
def percentilesF64 (ds : List Duration) : Duration × Duration :=
  if ds.length = 0 then (0, 0)
  else
    let tmp := sortLoop ds
    (tmp.getD (idxF64 tmp.length 50).toNat 0, tmp.getD (idxF64 tmp.length 95).toNat 0)

/-- Insertion of `x` into the reversed (descending) prefix, as the inner loop does it. -/
def insDesc (x : Duration) : List Duration → List Duration
  | [] => [x]
  | a :: P => if a > x then a :: insDesc x P else x :: a :: P

/-- The relation the worker phase keeps between the store and the calls that have
returned: the store holds, in order, the durations of the successful ones, and some
goroutine has called `log.Fatal` exactly when one of them failed. -/
def Consistent (s : State) : Prop :=
  s.m.durations = (s.log.filter (fun c => !c.res.err)).map (fun c => c.res.took) ∧
  (s.fatal = true ↔ ∃ c ∈ s.log, c.res.err = true)

/-- The state of the worker phase of `bench` when the process ends or the last goroutine
returns. -/
def benchFinal (env : Env) (total conc : Int) : State :=
  exec env.pub env.sched (work (spawn total conc))
    { State.init env.startNs env.exitDelay with ws := spawn total conc }

/-! # Theorems -/

/-! ## Work split: proofs -/

theorem share_eq (total conc : Int) (h0 : 0 ≤ total) (hc : 1 ≤ conc) (i : Int) :
    share total conc i = if i < total % conc then total / conc + 1 else total / conc := by
  unfold share
  simp only [Int.tdiv_eq_ediv h0 (by omega : (0 : Int) ≤ conc),
    Int.tmod_eq_emod h0 (by omega : (0 : Int) ≤ conc)]

theorem sum_split (p r : Int) (k : Nat) :
    ((List.range k).map (fun (i : Nat) => if (i : Int) < r then p + 1 else p)).sum
      = (k : Int) * p + min (k : Int) (max r 0) := by
  induction k with
  | zero => simp
  | succ k ih =>
    rw [List.range_succ, List.map_append, List.sum_append, ih]
    simp only [List.map_cons, List.map_nil, List.sum_cons, List.sum_nil]
    push_cast
    by_cases h : (k : Int) < r
    · rw [if_pos h, min_eq_left (by omega), min_eq_left (by omega)]; ring
    · rw [if_neg h]
      have e : min ((k : Int) + 1) (max r 0) = min (k : Int) (max r 0) := by omega
      rw [e]; ring

theorem count_split (p r : Int) (k : Nat) :
    (((List.range k).map (fun (i : Nat) => if (i : Int) < r then p + 1 else p)).count (p + 1) : Int)
      = min (k : Int) (max r 0) := by
  induction k with
  | zero => simp
  | succ k ih =>
    rw [List.range_succ, List.map_append, List.count_append]
    push_cast
    rw [ih]
    by_cases h : (k : Int) < r
    · simp only [List.map_cons, List.map_nil, if_pos h, List.count_singleton_self]
      omega
    · simp only [List.map_cons, List.map_nil, if_neg h]
      have : List.count (p + 1) [p] = 0 := by
        rw [List.count_eq_zero]; simp
      rw [this]; omega

theorem partition_eq (total conc : Int) (h0 : 0 ≤ total) (hc : 1 ≤ conc) :
    partition total conc = (List.range conc.toNat).map
      (fun (i : Nat) => if (i : Int) < total % conc then total / conc + 1 else total / conc) := by
  unfold partition
  apply List.map_congr_left
  intro i _
  exact share_eq total conc h0 hc i

theorem sum_partition (total conc : Int) (h0 : 0 ≤ total) (hc : 1 ≤ conc) :
    (partition total conc).sum = total := by
  rw [partition_eq total conc h0 hc, sum_split]
  have h1 : 0 ≤ total % conc := Int.emod_nonneg _ (by omega)
  have h2 : total % conc < conc := Int.emod_lt_of_pos _ (by omega)
  have h3 := Int.ediv_add_emod total conc
  have h4 : ((conc.toNat : Nat) : Int) = conc := Int.toNat_of_nonneg (by omega)
  rw [h4, max_eq_left h1, min_eq_right (by omega)]
  linarith

/-- C1. For every total >= 0 and workerCount >= 1 the per-worker counts `n` computed by the
spawn loop over `i = 0 .. workerCount-1` (`per + 1` when `i < rem`, else `per`) sum to
exactly `total`. -/
theorem partition_sum (total conc : Int) (h0 : 0 ≤ total) (hc : 1 ≤ conc) :
    (partition total conc).sum = total ∧
    (∀ i : Nat, (i : Int) < conc → (partition total conc)[i]? =
      some (if (i : Int) < Int.tmod total conc then Int.tdiv total conc + 1
        else Int.tdiv total conc)) := by
  refine ⟨sum_partition total conc h0 hc, fun i hi => ?_⟩
  unfold partition
  rw [List.getElem?_map, List.getElem?_range (by omega : i < conc.toNat)]
  rfl

theorem partition_sum_witness :
    (0 : Int) ≤ 10 ∧ (1 : Int) ≤ 4 ∧ (partition 10 4).sum = 10 ∧
    (∀ i : Nat, (i : Int) < 4 → (partition 10 4)[i]? =
      some (if (i : Int) < Int.tmod 10 4 then Int.tdiv 10 4 + 1 else Int.tdiv 10 4)) :=
  ⟨by decide, by decide, partition_sum 10 4 (by decide) (by decide)⟩

/-- C2. For every total >= 0 and workerCount >= 1 the split has one entry per worker, the
first `total mod workerCount` entries are `floor(total / workerCount) + 1` and the others
`floor(total / workerCount)`; so exactly `total mod workerCount <= workerCount - 1` workers
get the larger count, and two counts differ by at most one. -/
theorem partition_policy (total conc : Int) (h0 : 0 ≤ total) (hc : 1 ≤ conc) :
    ((partition total conc).length : Int) = conc ∧
    (∀ i : Nat, (i : Int) < total % conc →
      (partition total conc)[i]? = some (total / conc + 1)) ∧
    (∀ i : Nat, total % conc ≤ (i : Int) → (i : Int) < conc →
      (partition total conc)[i]? = some (total / conc)) ∧
    (((partition total conc).count (total / conc + 1) : Nat) : Int) = total % conc ∧
    total % conc ≤ conc - 1 ∧
    (∀ a ∈ partition total conc, ∀ b ∈ partition total conc, a - b ≤ 1) := by
  have h1 : 0 ≤ total % conc := Int.emod_nonneg _ (by omega)
  have h2 : total % conc < conc := Int.emod_lt_of_pos _ (by omega)
  have h4 : ((conc.toNat : Nat) : Int) = conc := Int.toNat_of_nonneg (by omega)
  have hget : ∀ i : Nat, (i : Int) < conc → (partition total conc)[i]? =
      some (if (i : Int) < total % conc then total / conc + 1 else total / conc) := by
    intro i hi
    rw [partition_eq total conc h0 hc, List.getElem?_map,
      List.getElem?_range (by omega : i < conc.toNat)]
    rfl
  have hmem : ∀ a ∈ partition total conc, a = total / conc + 1 ∨ a = total / conc := by
    intro a ha
    rw [partition_eq total conc h0 hc, List.mem_map] at ha
    obtain ⟨i, _, rfl⟩ := ha
    by_cases h : (i : Int) < total % conc
    · left; rw [if_pos h]
    · right; rw [if_neg h]
  refine ⟨?_, ?_, ?_, ?_, by omega, ?_⟩
  · simp [partition, h4]
  · intro i hi
    rw [hget i (by omega), if_pos hi]
  · intro i hlo hi
    rw [hget i hi, if_neg (by omega)]
  · rw [partition_eq total conc h0 hc, count_split, h4, max_eq_left h1, min_eq_right (by omega)]
  · intro a ha b hb
    rcases hmem a ha with rfl | rfl <;> rcases hmem b hb with rfl | rfl <;> omega

theorem partition_policy_witness :
    (0 : Int) ≤ 10 ∧ (1 : Int) ≤ 4 ∧
    (((partition 10 4).length : Int) = 4 ∧
    (∀ i : Nat, (i : Int) < 10 % 4 → (partition 10 4)[i]? = some (10 / 4 + 1)) ∧
    (∀ i : Nat, (10 : Int) % 4 ≤ (i : Int) → (i : Int) < 4 →
      (partition 10 4)[i]? = some (10 / 4)) ∧
    (((partition 10 4).count (10 / 4 + 1) : Nat) : Int) = 10 % 4 ∧
    (10 : Int) % 4 ≤ 4 - 1 ∧
    (∀ a ∈ partition 10 4, ∀ b ∈ partition 10 4, a - b ≤ 1)) :=
  ⟨by decide, by decide, partition_policy 10 4 (by decide) (by decide)⟩

/-- C3, as stated, fails: for total = 100000 and workerCount = 64 the remainder is not 48,
the split does not give 48 workers 1563 and 16 workers 1562, and 48*1563 + 16*1562 is not
100000. -/
theorem partition_example_refuted :
    ¬ (Int.tmod 100000 64 = 48) ∧
    ¬ ((partition 100000 64).count 1563 = 48) ∧
    ¬ ((partition 100000 64).count 1562 = 16) ∧
    ¬ ((48 : Int) * 1563 + 16 * 1562 = 100000) := by
  decide

/-- C3, amended. For total = 100000 and workerCount = 64 integer division gives 1562 with
remainder 32, so the split gives exactly 32 workers 1563 messages (the first 32) and exactly
32 workers 1562 messages, and 32*1563 + 32*1562 = 100000. -/
theorem partition_example :
    Int.tdiv 100000 64 = 1562 ∧ Int.tmod 100000 64 = 32 ∧
    partition 100000 64 = List.replicate 32 1563 ++ List.replicate 32 1562 ∧
    (partition 100000 64).count 1563 = 32 ∧
    (partition 100000 64).count 1562 = 32 ∧
    (partition 100000 64).length = 64 ∧
    (32 : Int) * 1563 + 32 * 1562 = 100000 ∧
    (partition 100000 64).sum = 100000 := by
  decide

/-! ## Percentile estimator: the sort -/

theorem getD_at_length (L : List Duration) (a : Duration) (T : List Duration) (d : Duration) :
    (L ++ a :: T).getD L.length d = a := by
  induction L with
  | nil => rfl
  | cons b L ih => simpa using ih

theorem getD_after_length (L : List Duration) (a b : Duration) (T : List Duration)
    (d : Duration) : (L ++ a :: b :: T).getD (L.length + 1) d = b := by
  induction L with
  | nil => rfl
  | cons c L ih => simpa using ih

theorem swap_at_length (L : List Duration) (a b : Duration) (T : List Duration) :
    swap (L ++ a :: b :: T) L.length (L.length + 1) = L ++ b :: a :: T := by
  unfold swap
  rw [getD_at_length, getD_after_length]
  induction L with
  | nil => rfl
  | cons c L ih => simp [ih]

theorem insertLoop_append (P : List Duration) (x : Duration) (R : List Duration) :
    insertLoop (P.reverse ++ x :: R) P.length = (insDesc x P).reverse ++ R := by
  induction P generalizing R with
  | nil => rfl
  | cons a P ih =>
    have e : (a :: P).reverse ++ x :: R = P.reverse ++ a :: x :: R := by simp
    have hl : P.length = P.reverse.length := by simp
    rw [e, List.length_cons, insertLoop]
    have g0 : (P.reverse ++ a :: x :: R).getD P.length 0 = a := by
      rw [hl]; exact getD_at_length _ _ _ _
    have g1 : (P.reverse ++ a :: x :: R).getD (P.length + 1) 0 = x := by
      rw [hl]; exact getD_after_length _ _ _ _ _
    rw [g0, g1]
    by_cases h : a > x
    · rw [if_pos h]
      have sw : swap (P.reverse ++ a :: x :: R) P.length (P.length + 1)
          = P.reverse ++ x :: a :: R := by
        rw [hl]; exact swap_at_length _ _ _ _
      rw [sw, ih (a :: R)]
      simp [insDesc, h]
    · rw [if_neg h]
      simp [insDesc, h]

theorem insDesc_perm (x : Duration) (P : List Duration) : (insDesc x P).Perm (x :: P) := by
  induction P with
  | nil => exact List.Perm.refl _
  | cons a P ih =>
    unfold insDesc
    by_cases h : a > x
    · rw [if_pos h]
      exact (List.Perm.cons a ih).trans (List.Perm.swap x a P)
    · rw [if_neg h]

theorem insDesc_sorted (x : Duration) (P : List Duration) (hP : List.Sorted (· ≥ ·) P) :
    List.Sorted (· ≥ ·) (insDesc x P) := by
  induction P with
  | nil => simp [insDesc]
  | cons a P ih =>
    unfold insDesc
    have hP' := List.sorted_cons.mp hP
    by_cases h : a > x
    · rw [if_pos h]
      refine List.sorted_cons.mpr ⟨?_, ih hP'.2⟩
      intro b hb
      rcases List.mem_cons.mp ((insDesc_perm x P).subset hb) with rfl | hb
      · exact le_of_lt h
      · exact hP'.1 b hb
    · rw [if_neg h]
      refine List.sorted_cons.mpr ⟨?_, hP⟩
      intro b hb
      have hxa : x ≥ a := not_lt.mp h
      rcases List.mem_cons.mp hb with rfl | hb
      · exact hxa
      · exact le_trans (hP'.1 b hb) hxa

theorem outer_invariant (ds : List Duration) (k : Nat) (hk : k + 1 ≤ ds.length) :
    ∃ S : List Duration, (List.range' 1 k).foldl insertLoop ds = S ++ ds.drop (k + 1) ∧
      List.Sorted (· ≤ ·) S ∧ S.Perm (ds.take (k + 1)) := by
  induction k with
  | zero =>
    refine ⟨ds.take 1, (List.take_append_drop 1 ds).symm, ?_, List.Perm.refl _⟩
    cases ds with
    | nil => simp
    | cons a t => simp
  | succ k ih =>
    obtain ⟨S, hS, hsorted, hperm⟩ := ih (by omega)
    have hlt : k + 1 < ds.length := by omega
    have hlen : S.length = k + 1 := by
      rw [hperm.length_eq, List.length_take]; omega
    have hrev : S.reverse.length = k + 1 := by simp [hlen]
    rw [List.range'_1_concat, List.foldl_append, hS, List.drop_eq_getElem_cons hlt]
    simp only [List.foldl_cons, List.foldl_nil]
    have step := insertLoop_append S.reverse ds[k + 1] (ds.drop (k + 1 + 1))
    rw [List.reverse_reverse, hrev] at step
    rw [show 1 + k = k + 1 by omega, step]
    refine ⟨(insDesc ds[k + 1] S.reverse).reverse, rfl, ?_, ?_⟩
    · have hdesc : List.Sorted (· ≥ ·) S.reverse := by
        unfold List.Sorted
        rw [List.pairwise_reverse]
        exact hsorted
      have := insDesc_sorted ds[k + 1] S.reverse hdesc
      unfold List.Sorted at this ⊢
      rw [List.pairwise_reverse]
      exact this
    · have t : ds.take (k + 1 + 1) = ds.take (k + 1) ++ [ds[k + 1]] := by
        rw [List.take_succ, List.getElem?_eq_getElem hlt]; rfl
      rw [t]
      refine (List.reverse_perm _).trans ((insDesc_perm _ _).trans ?_)
      refine (List.Perm.cons _ ((List.reverse_perm S).trans hperm)).trans ?_
      exact (List.perm_append_singleton _ _).symm

theorem sortLoop_sorted (ds : List Duration) : List.Sorted (· ≤ ·) (sortLoop ds) := by
  unfold sortLoop
  cases ds with
  | nil => simp
  | cons a t =>
    obtain ⟨S, hS, hsorted, _⟩ := outer_invariant (a :: t) t.length (by simp)
    simp only [List.length_cons, Nat.add_sub_cancel]
    rw [hS]
    simpa using hsorted

theorem sortLoop_perm (ds : List Duration) : (sortLoop ds).Perm ds := by
  unfold sortLoop
  cases ds with
  | nil => simp
  | cons a t =>
    obtain ⟨S, hS, _, hperm⟩ := outer_invariant (a :: t) t.length (by simp)
    simp only [List.length_cons, Nat.add_sub_cancel]
    rw [hS]
    simpa using hperm

/-- The sorted copy is the one ascending arrangement of the samples. -/
theorem sortLoop_unique (ds s : List Duration) (hs : List.Sorted (· ≤ ·) s) (hp : s.Perm ds) :
    sortLoop ds = s :=
  List.eq_of_perm_of_sorted ((sortLoop_perm ds).trans hp.symm) (sortLoop_sorted ds) hs

/-! ## Percentile estimator: the index -/

theorem rawIdx_nat (len p : Nat) (h : 1 ≤ len) :
    rawIdx len (p : ℚ) = (((len - 1) * p / 100 : Nat) : Int) := by
  unfold rawIdx float64ToInt
  have hn : (0 : ℚ) ≤ (((len : Int) - 1 : Int) : ℚ) * (p : ℚ) / 100 := by
    have : (0 : ℚ) ≤ (((len : Int) - 1 : Int) : ℚ) := by
      exact_mod_cast (by omega : (0 : Int) ≤ (len : Int) - 1)
    positivity
  rw [if_pos hn]
  have e : (((len : Int) - 1 : Int) : ℚ) * (p : ℚ) / 100
      = (((((len : Int) - 1) * (p : Int) : Int) : ℚ)) / ((100 : Nat) : ℚ) := by
    push_cast; ring
  rw [e, Rat.floor_intCast_div_natCast]
  have hsub : ((len - 1 : Nat) : Int) = (len : Int) - 1 := by omega
  push_cast
  rw [hsub]

theorem idx_nat (len p : Nat) (h : 1 ≤ len) (hp : p ≤ 100) :
    idx len (p : ℚ) = rawIdx len (p : ℚ) ∧
    rawIdx len (p : ℚ) = (((len - 1) * p / 100 : Nat) : Int) ∧
    (len - 1) * p / 100 < len := by
  have hb : (len - 1) * p / 100 ≤ len - 1 := by
    apply Nat.div_le_of_le_mul
    calc (len - 1) * p ≤ (len - 1) * 100 := Nat.mul_le_mul_left _ hp
      _ = 100 * (len - 1) := Nat.mul_comm _ _
  have hr := rawIdx_nat len p h
  refine ⟨?_, hr, by omega⟩
  unfold idx
  simp only [hr]
  rw [if_neg (by omega), if_neg (by omega)]

theorem idx50 (len : Nat) (h : 1 ≤ len) :
    idx len 50 = (((len - 1) * 50 / 100 : Nat) : Int) := by
  have := idx_nat len 50 h (by decide)
  rw [← this.2.1, ← this.1]; norm_num

theorem idx95 (len : Nat) (h : 1 ≤ len) :
    idx len 95 = (((len - 1) * 95 / 100 : Nat) : Int) := by
  have := idx_nat len 95 h (by decide)
  rw [← this.2.1, ← this.1]; norm_num

theorem percentiles_of_sorted (ds s : List Duration) (hne : ds ≠ [])
    (hs : List.Sorted (· ≤ ·) s) (hp : s.Perm ds) :
    percentiles ds =
      (s.getD ((ds.length - 1) * 50 / 100) 0, s.getD ((ds.length - 1) * 95 / 100) 0) := by
  have hlen : 1 ≤ ds.length := by
    cases ds with
    | nil => exact absurd rfl hne
    | cons a t => simp
  unfold percentiles
  rw [if_neg (by omega)]
  simp only [sortLoop_unique ds s hs hp, hp.length_eq,
    idx50 ds.length hlen, idx95 ds.length hlen, Int.toNat_ofNat]

theorem sorted_getD_le (s : List Duration) (hs : List.Sorted (· ≤ ·) s) (a b : Nat)
    (hab : a ≤ b) (hb : b < s.length) : s.getD a 0 ≤ s.getD b 0 := by
  have ha : a < s.length := by omega
  rw [List.getD_eq_getElem _ _ ha, List.getD_eq_getElem _ _ hb]
  rcases Nat.lt_or_eq_of_le hab with h | h
  · exact (List.pairwise_iff_getElem.mp hs) a b ha hb h
  · subst h; exact le_refl _

/-- C4. `percentiles` is the nearest-rank estimator: `(0, 0)` on the empty input, and on a
non-empty input of `N` samples whose ascending arrangement is `s` it returns
`(s[floor((N-1)*50/100)], s[floor((N-1)*95/100)])`; on `[10,20,30,40,50]` that is
`(30, 40)`. -/
theorem percentiles_nearest_rank (ds s : List Duration) (hne : ds ≠ [])
    (hs : List.Sorted (· ≤ ·) s) (hp : s.Perm ds) :
    percentiles [] = (0, 0) ∧
    s[(ds.length - 1) * 50 / 100]? = some (percentiles ds).1 ∧
    s[(ds.length - 1) * 95 / 100]? = some (percentiles ds).2 ∧
    percentiles [10, 20, 30, 40, 50] = (30, 40) := by
  have hlen : 1 ≤ ds.length := by
    cases ds with
    | nil => exact absurd rfl hne
    | cons a t => simp
  have h50 : (ds.length - 1) * 50 / 100 < s.length := by rw [hp.length_eq]; omega
  have h95 : (ds.length - 1) * 95 / 100 < s.length := by rw [hp.length_eq]; omega
  refine ⟨rfl, ?_, ?_, ?_⟩
  · rw [percentiles_of_sorted ds s hne hs hp, List.getElem?_eq_getElem h50,
      List.getD_eq_getElem _ _ h50]
  · rw [percentiles_of_sorted ds s hne hs hp, List.getElem?_eq_getElem h95,
      List.getD_eq_getElem _ _ h95]
  · rw [percentiles_of_sorted [10, 20, 30, 40, 50] [10, 20, 30, 40, 50] (by decide)
      (by decide) (List.Perm.refl _)]
    decide

theorem percentiles_nearest_rank_witness :
    ([50, 20, 10, 40, 30] : List Duration) ≠ [] ∧
    List.Sorted (· ≤ ·) ([10, 20, 30, 40, 50] : List Duration) ∧
    ([10, 20, 30, 40, 50] : List Duration).Perm [50, 20, 10, 40, 30] ∧
    (percentiles [] = (0, 0) ∧
    ([10, 20, 30, 40, 50] : List Duration)[(([50, 20, 10, 40, 30] : List Duration).length - 1)
      * 50 / 100]? = some (percentiles [50, 20, 10, 40, 30]).1 ∧
    ([10, 20, 30, 40, 50] : List Duration)[(([50, 20, 10, 40, 30] : List Duration).length - 1)
      * 95 / 100]? = some (percentiles [50, 20, 10, 40, 30]).2 ∧
    percentiles [10, 20, 30, 40, 50] = (30, 40)) :=
  ⟨by decide, by decide, by decide,
    percentiles_nearest_rank [50, 20, 10, 40, 30] [10, 20, 30, 40, 50] (by decide) (by decide)
      (by decide)⟩

/-- C10. On a non-empty input of `N` samples: `p50 <= p95`; both are samples of the input;
the two indices computed before clamping already lie in `[0, N-1]`, so `idx` returns them
unchanged; and both index the sorted copy (which has `N` entries) within range. -/
theorem percentiles_order_membership (ds : List Duration) (hne : ds ≠ []) :
    (percentiles ds).1 ≤ (percentiles ds).2 ∧
    (percentiles ds).1 ∈ ds ∧ (percentiles ds).2 ∈ ds ∧
    (0 ≤ rawIdx ds.length 50 ∧ rawIdx ds.length 50 ≤ (ds.length : Int) - 1) ∧
    (0 ≤ rawIdx ds.length 95 ∧ rawIdx ds.length 95 ≤ (ds.length : Int) - 1) ∧
    idx ds.length 50 = rawIdx ds.length 50 ∧ idx ds.length 95 = rawIdx ds.length 95 ∧
    (sortLoop ds).length = ds.length ∧
    (sortLoop ds)[(idx (sortLoop ds).length 50).toNat]? = some (percentiles ds).1 ∧
    (sortLoop ds)[(idx (sortLoop ds).length 95).toNat]? = some (percentiles ds).2 := by
  have hlen : 1 ≤ ds.length := by
    cases ds with
    | nil => exact absurd rfl hne
    | cons a t => simp
  have hsl : (sortLoop ds).length = ds.length := (sortLoop_perm ds).length_eq
  have i50 := idx_nat ds.length 50 hlen (by decide)
  have i95 := idx_nat ds.length 95 hlen (by decide)
  have c50 : ((50 : Nat) : ℚ) = 50 := by norm_num
  have c95 : ((95 : Nat) : ℚ) = 95 := by norm_num
  rw [c50] at i50
  rw [c95] at i95
  have h50 : (ds.length - 1) * 50 / 100 < (sortLoop ds).length := by rw [hsl]; omega
  have h95 : (ds.length - 1) * 95 / 100 < (sortLoop ds).length := by rw [hsl]; omega
  have hP := percentiles_of_sorted ds (sortLoop ds) hne (sortLoop_sorted ds) (sortLoop_perm ds)
  have m50 : (sortLoop ds).getD ((ds.length - 1) * 50 / 100) 0 ∈ sortLoop ds := by
    rw [List.getD_eq_getElem _ _ h50]; exact List.getElem_mem _
  have m95 : (sortLoop ds).getD ((ds.length - 1) * 95 / 100) 0 ∈ sortLoop ds := by
    rw [List.getD_eq_getElem _ _ h95]; exact List.getElem_mem _
  refine ⟨?_, ?_, ?_, ⟨?_, ?_⟩, ⟨?_, ?_⟩, i50.1, i95.1, hsl, ?_, ?_⟩
  · rw [hP]
    exact sorted_getD_le _ (sortLoop_sorted ds) _ _ (by omega) h95
  · rw [hP]; exact (sortLoop_perm ds).subset m50
  · rw [hP]; exact (sortLoop_perm ds).subset m95
  · rw [i50.2.1]; omega
  · rw [i50.2.1]; omega
  · rw [i95.2.1]; omega
  · rw [i95.2.1]; omega
  · rw [hsl, i50.1, i50.2.1, Int.toNat_ofNat, hP, List.getElem?_eq_getElem h50,
      List.getD_eq_getElem _ _ h50]
  · rw [hsl, i95.1, i95.2.1, Int.toNat_ofNat, hP, List.getElem?_eq_getElem h95,
      List.getD_eq_getElem _ _ h95]

theorem percentiles_order_membership_witness :
    ([7, 3, 9] : List Duration) ≠ [] ∧
    ((percentiles [7, 3, 9]).1 ≤ (percentiles [7, 3, 9]).2 ∧
    (percentiles [7, 3, 9]).1 ∈ ([7, 3, 9] : List Duration) ∧
    (percentiles [7, 3, 9]).2 ∈ ([7, 3, 9] : List Duration) ∧
    (0 ≤ rawIdx ([7, 3, 9] : List Duration).length 50 ∧
      rawIdx ([7, 3, 9] : List Duration).length 50
        ≤ ((([7, 3, 9] : List Duration).length : Nat) : Int) - 1) ∧
    (0 ≤ rawIdx ([7, 3, 9] : List Duration).length 95 ∧
      rawIdx ([7, 3, 9] : List Duration).length 95
        ≤ ((([7, 3, 9] : List Duration).length : Nat) : Int) - 1) ∧
    idx ([7, 3, 9] : List Duration).length 50 = rawIdx ([7, 3, 9] : List Duration).length 50 ∧
    idx ([7, 3, 9] : List Duration).length 95 = rawIdx ([7, 3, 9] : List Duration).length 95 ∧
    (sortLoop [7, 3, 9]).length = ([7, 3, 9] : List Duration).length ∧
    (sortLoop [7, 3, 9])[(idx (sortLoop [7, 3, 9]).length 50).toNat]?
      = some (percentiles [7, 3, 9]).1 ∧
    (sortLoop [7, 3, 9])[(idx (sortLoop [7, 3, 9]).length 95).toNat]?
      = some (percentiles [7, 3, 9]).2) :=
  ⟨by decide, percentiles_order_membership [7, 3, 9] (by decide)⟩

/-! ## Worker phase: scheduling lemmas -/

theorem live_iff (w : Worker) : w.live = true ↔ w.inFatal = false ∧ w.j < w.n := by
  unfold Worker.live
  simp

theorem todo_pos_of_live (w : Worker) (h : w.live = true) : 0 < w.todo := by
  obtain ⟨h1, h2⟩ := (live_iff w).mp h
  unfold Worker.todo
  rw [h1]
  simp only [Bool.false_eq_true, if_false]
  omega

theorem live_of_todo_pos (w : Worker) (h : 0 < w.todo) : w.live = true := by
  unfold Worker.todo at h
  rw [live_iff]
  cases hf : w.inFatal with
  | true => rw [hf] at h; simp at h
  | false =>
    rw [hf] at h
    simp only [Bool.false_eq_true, if_false] at h
    exact ⟨rfl, by omega⟩

theorem pick_some (ws : List Worker) (k p : Nat) (w : Worker) (h : pick ws k = some (p, w)) :
    ws[p]? = some w ∧ w.live = true := by
  unfold pick at h
  have hm : (p, w) ∈ liveWorkers ws := List.getElem?_mem h
  unfold liveWorkers at hm
  rw [List.mem_filter] at hm
  exact ⟨List.mk_mem_enum_iff_getElem?.mp hm.1, hm.2⟩

theorem sum_map_set (f : Worker → Nat) (l : List Worker) (p : Nat) (a b : Worker)
    (h : l[p]? = some a) :
    ((l.set p b).map f).sum + f a = (l.map f).sum + f b := by
  induction l generalizing p with
  | nil => simp at h
  | cons c l ih =>
    cases p with
    | zero =>
      simp only [List.getElem?_cons_zero, Option.some.injEq] at h
      subst h
      simp only [List.set_cons_zero, List.map_cons, List.sum_cons]
      omega
    | succ p =>
      simp only [List.getElem?_cons_succ] at h
      have := ih p h
      simp only [List.set_cons_succ, List.map_cons, List.sum_cons]
      omega

theorem work_set (ws : List Worker) (p : Nat) (w : Worker) (h : ws[p]? = some w)
    (hl : w.live = true) : work (ws.set p { w with j := w.j + 1 }) + 1 = work ws := by
  obtain ⟨h1, h2⟩ := (live_iff w).mp hl
  unfold work
  have := sum_map_set Worker.todo ws p w { w with j := w.j + 1 } h
  have e1 : w.todo = (w.n - w.j).toNat := by simp [Worker.todo, h1]
  have e2 : Worker.todo { w with j := w.j + 1 } = (w.n - (w.j + 1)).toNat := by
    simp [Worker.todo, h1]
  rw [e1, e2] at this
  omega

theorem work_set_fatal (ws : List Worker) (p : Nat) (w : Worker) (h : ws[p]? = some w)
    (hl : w.live = true) : work (ws.set p { w with inFatal := true }) < work ws := by
  have hpos := todo_pos_of_live w hl
  unfold work
  have := sum_map_set Worker.todo ws p w { w with inFatal := true } h
  have e2 : Worker.todo { w with inFatal := true } = 0 := by simp [Worker.todo]
  rw [e2] at this
  omega

theorem work_pos_of_mem (ws : List Worker) (w : Worker) (hw : w ∈ ws) (hl : w.live = true) :
    0 < work ws := by
  have hpos := todo_pos_of_live w hl
  unfold work
  induction ws with
  | nil => simp at hw
  | cons c l ih =>
    simp only [List.map_cons, List.sum_cons]
    rcases List.mem_cons.mp hw with rfl | h
    · omega
    · have := ih h; omega

theorem exists_live_of_work_pos (ws : List Worker) (h : 0 < work ws) :
    ∃ (p : Nat) (w : Worker), ws[p]? = some w ∧ w.live = true := by
  unfold work at h
  induction ws with
  | nil => simp at h
  | cons c l ih =>
    simp only [List.map_cons, List.sum_cons] at h
    by_cases hc : 0 < c.todo
    · exact ⟨0, c, List.getElem?_cons_zero, live_of_todo_pos c hc⟩
    · obtain ⟨p, w, hp, hw⟩ := ih (by omega)
      exact ⟨p + 1, w, by rw [List.getElem?_cons_succ]; exact hp, hw⟩

theorem pick_of_work_pos (ws : List Worker) (k : Nat) (h : 0 < work ws) :
    ∃ p w, pick ws k = some (p, w) := by
  obtain ⟨p, w, hp, hw⟩ := exists_live_of_work_pos ws h
  have hm : (p, w) ∈ liveWorkers ws := by
    unfold liveWorkers
    rw [List.mem_filter]
    exact ⟨List.mk_mem_enum_iff_getElem?.mpr hp, hw⟩
  have hpos : 0 < (liveWorkers ws).length := List.length_pos_of_mem hm
  have hlt : k % (liveWorkers ws).length < (liveWorkers ws).length := Nat.mod_lt _ hpos
  unfold pick
  rw [List.getElem?_eq_getElem hlt]
  exact ⟨_, _, rfl⟩

theorem any_live_iff (ws : List Worker) : ws.any Worker.live = true ↔ 0 < work ws := by
  constructor
  · intro h
    rw [List.any_eq_true] at h
    obtain ⟨w, hw, hl⟩ := h
    exact work_pos_of_mem ws w hw hl
  · intro h
    obtain ⟨p, w, hp, hw⟩ := exists_live_of_work_pos ws h
    rw [List.any_eq_true]
    exact ⟨w, List.getElem?_mem hp, hw⟩

theorem step_gone (pub : Nat → Int → PublishResult) (k : Nat) (s : State)
    (h : s.fatal = true ∧ s.grace = 0) : step pub k s = s := by
  unfold step; rw [if_pos h]

theorem step_consistent (pub : Nat → Int → PublishResult) (k : Nat) (s : State)
    (h : Consistent s) : Consistent (step pub k s) := by
  obtain ⟨hd, hfat⟩ := h
  unfold step
  split
  · exact ⟨hd, hfat⟩
  · cases hp : pick s.ws k with
    | none => exact ⟨hd, hfat⟩
    | some pw =>
      obtain ⟨p, w⟩ := pw
      simp only
      by_cases he : (pub w.i w.j).err = true
      · rw [if_pos he]
        refine ⟨?_, ?_⟩
        · simp [List.filter_append, he, hd]
        · simp only [true_iff]
          exact ⟨_, List.mem_append_right _ (List.mem_singleton_self _), he⟩
      · rw [if_neg he]
        have he' : (pub w.i w.j).err = false := by simpa using he
        refine ⟨?_, ?_⟩
        · simp [metrics.add, List.filter_append, he', hd]
        · show s.fatal = true ↔ ∃ c ∈ s.log ++ [_], c.res.err = true
          rw [hfat]
          constructor
          · rintro ⟨c, hc, hce⟩
            exact ⟨c, List.mem_append_left _ hc, hce⟩
          · rintro ⟨c, hc, hce⟩
            rcases List.mem_append.mp hc with hc | hc
            · exact ⟨c, hc, hce⟩
            · rw [List.mem_singleton] at hc
              subst hc
              simp only at hce
              rw [he'] at hce
              exact absurd hce (by decide)

theorem step_sticky (pub : Nat → Int → PublishResult) (k : Nat) (s : State)
    (h : s.fatal = true) : (step pub k s).fatal = true := by
  unfold step
  split
  · exact h
  · cases hp : pick s.ws k with
    | none => exact h
    | some pw =>
      obtain ⟨p, w⟩ := pw
      simp only
      split
      · rfl
      · exact h

theorem exec_sticky (pub : Nat → Int → PublishResult) (sched : Nat → Nat) (fuel : Nat)
    (s : State) (h : s.fatal = true) : (exec pub sched fuel s).fatal = true := by
  induction fuel generalizing s with
  | zero => exact h
  | succ n ih => exact ih _ (step_sticky pub _ s h)

theorem step_progress (pub : Nat → Int → PublishResult) (k : Nat) (s : State)
    (hf : s.fatal = false) (hw : 0 < work s.ws) :
    (step pub k s).fatal = true ∨
      ((step pub k s).fatal = false ∧ work (step pub k s).ws + 1 = work s.ws ∧
        (step pub k s).log.length = s.log.length + 1) := by
  obtain ⟨p, w, hp⟩ := pick_of_work_pos s.ws k hw
  obtain ⟨hget, hlive⟩ := pick_some s.ws k p w hp
  unfold step
  rw [if_neg (by simp [hf]), hp]
  simp only
  by_cases he : (pub w.i w.j).err = true
  · rw [if_pos he]; left; rfl
  · rw [if_neg he]
    exact Or.inr ⟨hf, work_set s.ws p w hget hlive, by simp⟩

theorem step_idle (pub : Nat → Int → PublishResult) (k : Nat) (s : State)
    (hw : work s.ws = 0) : step pub k s = s := by
  unfold step
  split
  · rfl
  · cases hp : pick s.ws k with
    | none => rfl
    | some pw =>
      obtain ⟨p, w⟩ := pw
      obtain ⟨hget, hlive⟩ := pick_some s.ws k p w hp
      have := work_pos_of_mem s.ws w (List.getElem?_mem hget) hlive
      omega

theorem exec_consistent (pub : Nat → Int → PublishResult) (sched : Nat → Nat) (fuel : Nat)
    (s : State) (h : Consistent s) : Consistent (exec pub sched fuel s) := by
  induction fuel generalizing s with
  | zero => exact h
  | succ n ih => exact ih _ (step_consistent pub _ s h)

/-- With fuel for every remaining iteration the worker phase ends: either some goroutine
has called `log.Fatal`, or no goroutine has an iteration left and one call was issued per
iteration. -/
theorem exec_complete (pub : Nat → Int → PublishResult) (sched : Nat → Nat) (fuel : Nat)
    (s : State) (hf : s.fatal = false) (hfuel : work s.ws ≤ fuel) :
    (exec pub sched fuel s).fatal = true ∨
    ((exec pub sched fuel s).fatal = false ∧ work (exec pub sched fuel s).ws = 0 ∧
      (exec pub sched fuel s).log.length = s.log.length + work s.ws) := by
  induction fuel generalizing s with
  | zero =>
    right
    have h0 : work s.ws = 0 := by omega
    exact ⟨hf, h0, by simp [exec, h0]⟩
  | succ n ih =>
    unfold exec
    by_cases hw : work s.ws = 0
    · rw [step_idle pub _ s hw]
      exact ih s hf (by omega)
    · rcases step_progress pub (sched s.log.length) s hf (by omega) with
        hdead | ⟨halive, hwork, hlen⟩
      · left
        exact exec_sticky pub sched n _ hdead
      · rcases ih _ halive (by omega) with h1 | ⟨h1, h2, h3⟩
        · left; exact h1
        · right; exact ⟨h1, h2, by omega⟩

/-! ## The run -/

theorem work_filterMap (total conc : Int) (l : List Nat) :
    work (l.filterMap (fun (i : Nat) =>
      let n := share total conc (i : Int)
      if n = 0 then none else some { i := i, n := n, j := 0, inFatal := false }))
      = (l.map (fun (i : Nat) => (share total conc (i : Int)).toNat)).sum := by
  induction l with
  | nil => rfl
  | cons a l ih =>
    by_cases h : share total conc (a : Int) = 0
    · rw [List.filterMap_cons_none (by simp [h]), ih]
      simp [h]
    · rw [List.filterMap_cons_some
        (b := { i := a, n := share total conc (a : Int), j := 0, inFatal := false })
        (by simp [h])]
      unfold work at ih ⊢
      simp only [List.map_cons, List.sum_cons, ih, Worker.todo, sub_zero,
        Bool.false_eq_true, if_false]

theorem sum_toNat (L : List Int) (h : ∀ x ∈ L, 0 ≤ x) :
    (((L.map Int.toNat).sum : Nat) : Int) = L.sum := by
  induction L with
  | nil => rfl
  | cons a L ih =>
    have ha : 0 ≤ a := h a (List.mem_cons_self _ _)
    have := ih (fun x hx => h x (List.mem_cons_of_mem _ hx))
    simp only [List.map_cons, List.sum_cons]
    rw [Nat.cast_add, this, Int.toNat_of_nonneg ha]

theorem share_nonneg (total conc : Int) (h0 : 0 ≤ total) (hc : 1 ≤ conc) (i : Int) :
    0 ≤ share total conc i := by
  rw [share_eq total conc h0 hc]
  have : 0 ≤ total / conc := Int.ediv_nonneg h0 (by omega)
  split <;> omega

/-- The goroutines started for `total >= 0` and `conc >= 1` have `total` iterations to run
between them. -/
theorem work_spawn (total conc : Int) (h0 : 0 ≤ total) (hc : 1 ≤ conc) :
    ((work (spawn total conc) : Nat) : Int) = total := by
  unfold spawn
  rw [work_filterMap]
  have e : (List.range conc.toNat).map (fun (i : Nat) => (share total conc (i : Int)).toNat)
      = (partition total conc).map Int.toNat := by
    unfold partition
    rw [List.map_map]; rfl
  rw [e, sum_toNat, sum_partition total conc h0 hc]
  intro x hx
  unfold partition at hx
  rw [List.mem_map] at hx
  obtain ⟨i, _, rfl⟩ := hx
  exact share_nonneg total conc h0 hc i

theorem consistent_init (start : Int) (grace : Nat) (ws : List Worker) :
    Consistent { State.init start grace with ws := ws } := by
  refine ⟨rfl, ?_⟩
  simp [State.init]

theorem bench_cases (env : Env) (total sz conc : Int) (hc : conc ≠ 0) :
    Consistent (benchFinal env total conc) ∧
    (((benchFinal env total conc).fatal = true ∧
        bench env total sz conc =
          { st := { benchFinal env total conc with
                    log := (benchFinal env total conc).log
                      ++ cutLog env.pub env.cut (benchFinal env total conc).ws },
            exit := .fatal .publishError }) ∨
     ((benchFinal env total conc).fatal = false ∧
        (benchFinal env total conc).log.length = work (spawn total conc) ∧
        bench env total sz conc =
          { st := benchFinal env total conc,
            exit := .report (summary env.intBits total sz conc
              (((env.endNs - (benchFinal env total conc).m.start : Int) : ℚ) / 1000000000)
              (benchFinal env total conc).m.durations) })) := by
  have hcons : Consistent (benchFinal env total conc) :=
    exec_consistent _ _ _ _ (consistent_init _ _ _)
  refine ⟨hcons, ?_⟩
  have hcomp := exec_complete env.pub env.sched (work (spawn total conc))
    { State.init env.startNs env.exitDelay with ws := spawn total conc } rfl (le_refl _)
  rcases hcomp with hf | ⟨hf, hw, hlen⟩
  · left
    refine ⟨hf, ?_⟩
    unfold bench
    rw [if_neg hc]
    simp only
    rw [if_pos hf]
    rfl
  · right
    have hlen' : (benchFinal env total conc).log.length = work (spawn total conc) := by
      unfold benchFinal; rw [hlen]; simp [State.init]
    refine ⟨hf, hlen', ?_⟩
    have hany : ¬ ((benchFinal env total conc).ws.any Worker.live = true) := by
      rw [any_live_iff]; unfold benchFinal; omega
    unfold bench
    rw [if_neg hc]
    simp only
    rw [if_neg (by rw [hf]; simp)]
    unfold benchFinal at hany
    rw [if_neg hany]
    rfl

theorem filter_ok_self (l : List Call) (h : ∀ c ∈ l, c.res.err = false) :
    l.filter (fun c => !c.res.err) = l := by
  rw [List.filter_eq_self]
  intro c hc
  simp [h c hc]

theorem filter_ok_lt (l : List Call) (h : ∃ c ∈ l, c.res.err = true) :
    (l.filter (fun c => !c.res.err)).length < l.length := by
  induction l with
  | nil => obtain ⟨c, hc, _⟩ := h; simp at hc
  | cons a l ih =>
    by_cases ha : a.res.err = true
    · rw [List.filter_cons_of_neg (by simp [ha])]
      have := List.length_filter_le (fun c => !c.res.err) l
      simp only [List.length_cons]
      omega
    · rw [List.filter_cons_of_pos (by simpa using ha)]
      obtain ⟨c, hc, hce⟩ := h
      rcases List.mem_cons.mp hc with rfl | hc
      · exact absurd hce ha
      · have := ih ⟨c, hc, hce⟩
        simp only [List.length_cons]
        omega

/-- What `bench` leaves behind: the store holds durations of successful calls only, a
failed call means the process was killed with no summary and the store is shorter than the
list of calls, and once the spawn loop is reached the summary is printed exactly when no
call failed. -/
theorem bench_fatal (env : Env) (total sz conc : Int) :
    List.Sublist (bench env total sz conc).st.m.durations
      (((bench env total sz conc).st.log.filter (fun c => !c.res.err)).map
        (fun c => c.res.took)) ∧
    ((∃ call ∈ (bench env total sz conc).st.log, call.res.err = true) →
      (bench env total sz conc).exit = .fatal .publishError ∧
      (bench env total sz conc).exit.isReport = false ∧
      (bench env total sz conc).st.m.durations.length
        < (bench env total sz conc).st.log.length) ∧
    (conc ≠ 0 → ((bench env total sz conc).exit.isReport = true ↔
      ∀ call ∈ (bench env total sz conc).st.log, call.res.err = false)) := by
  by_cases hc : conc = 0
  · subst hc
    refine ⟨List.Sublist.refl _, ?_, fun h => absurd rfl h⟩
    rintro ⟨call, hmem, _⟩
    exact absurd hmem (by simp [bench, State.init])
  obtain ⟨⟨hd, hfat⟩, hcase⟩ := bench_cases env total sz conc hc
  rcases hcase with ⟨hf, hb⟩ | ⟨hf, _, hb⟩
  · obtain ⟨c, hcmem, hce⟩ := hfat.mp hf
    have hsub : List.Sublist (benchFinal env total conc).m.durations
        ((((benchFinal env total conc).log
          ++ cutLog env.pub env.cut (benchFinal env total conc).ws).filter
            (fun c => !c.res.err)).map (fun c => c.res.took)) := by
      rw [hd, List.filter_append, List.map_append]
      exact List.sublist_append_left _ _
    have hex : ∃ call ∈ (benchFinal env total conc).log
        ++ cutLog env.pub env.cut (benchFinal env total conc).ws, call.res.err = true :=
      ⟨c, List.mem_append_left _ hcmem, hce⟩
    rw [hb]
    refine ⟨hsub, fun _ => ⟨rfl, rfl, ?_⟩, fun _ => ?_⟩
    · have h1 := hsub.length_le
      have h2 := filter_ok_lt _ hex
      rw [List.length_map] at h1
      exact lt_of_le_of_lt h1 h2
    · constructor
      · intro h
        have h' : Exit.isReport (.fatal .publishError) = true := h
        exact absurd h' (by decide)
      · intro h
        have := h c (List.mem_append_left _ hcmem)
        rw [hce] at this
        exact absurd this (by decide)
  · have hall : ∀ call ∈ (benchFinal env total conc).log, call.res.err = false := by
      intro call hmem
      cases he : call.res.err with
      | false => rfl
      | true =>
        have := hfat.mpr ⟨call, hmem, he⟩
        rw [hf] at this
        exact absurd this (by decide)
    rw [hb]
    refine ⟨by rw [hd], ?_, fun _ => ⟨fun _ => hall, fun _ => rfl⟩⟩
    rintro ⟨call, hmem, herr⟩
    have := hall call hmem
    rw [herr] at this
    exact absurd this (by decide)

/-- C5. A run of `total = N >= 0` messages over `c >= 1` workers (in particular every
`N >= 1` with `1 <= c <= N`), under any interleaving of the workers, in which every publish
call issued succeeds: the run completes with a summary, exactly `N` publish calls were
issued, and `m.durations` holds exactly `N` entries, the durations of those calls, one
appended per call. -/
theorem recorder_complete (env : Env) (N sz c : Int) (hN : 0 ≤ N) (hc : 1 ≤ c)
    (hok : ∀ call ∈ (bench env N sz c).st.log, call.res.err = false) :
    (((bench env N sz c).st.m.durations.length : Nat) : Int) = N ∧
    (((bench env N sz c).st.log.length : Nat) : Int) = N ∧
    (bench env N sz c).st.m.durations
      = (bench env N sz c).st.log.map (fun call => call.res.took) ∧
    (bench env N sz c).exit.isReport = true := by
  have hc0 : c ≠ 0 := by omega
  obtain ⟨⟨hd, hfat⟩, hcase⟩ := bench_cases env N sz c hc0
  rcases hcase with ⟨hf, hb⟩ | ⟨hf, hlen, hb⟩
  · obtain ⟨call, hmem, herr⟩ := hfat.mp hf
    rw [hb] at hok
    have := hok call (List.mem_append_left _ hmem)
    rw [herr] at this
    exact absurd this (by decide)
  · rw [hb] at hok ⊢
    simp only at hok ⊢
    have hd' : (benchFinal env N c).m.durations
        = (benchFinal env N c).log.map (fun call => call.res.took) := by
      rw [hd, filter_ok_self _ hok]
    refine ⟨?_, ?_, hd', rfl⟩
    · rw [hd', List.length_map, hlen]; exact work_spawn N c hN hc
    · rw [hlen]; exact work_spawn N c hN hc

theorem recorder_complete_witness :
    (0 : Int) ≤ 5 ∧ (1 : Int) ≤ 3 ∧
    (∀ call ∈ (bench envOk 5 512 3).st.log, call.res.err = false) ∧
    ((((bench envOk 5 512 3).st.m.durations.length : Nat) : Int) = 5 ∧
    (((bench envOk 5 512 3).st.log.length : Nat) : Int) = 5 ∧
    (bench envOk 5 512 3).st.m.durations
      = (bench envOk 5 512 3).st.log.map (fun call => call.res.took) ∧
    (bench envOk 5 512 3).exit.isReport = true) :=
  ⟨by decide, by decide, by decide,
    recorder_complete envOk 5 512 3 (by decide) (by decide) (by decide)⟩

theorem wrapInt_of_fits (bits : Nat) (x : Int) (hlo : -(2 ^ bits : Int) ≤ 2 * x)
    (hhi : 2 * x < 2 ^ bits) : wrapInt bits x = x := by
  unfold wrapInt Int.bmod
  have hm : (0 : Int) < 2 ^ bits := by positivity
  have hcast : ((2 ^ bits : Nat) : Int) = (2 : Int) ^ bits := by push_cast; rfl
  rw [hcast]
  generalize (2 : Int) ^ bits = m at *
  by_cases hx : 0 ≤ x
  · have e : x % m = x := Int.emod_eq_of_lt hx (by omega)
    simp only [e]
    rw [if_pos (by omega)]
  · have e : x % m = x + m := by
      rw [← Int.add_emod_self]
      exact Int.emod_eq_of_lt (by omega) (by omega)
    simp only [e]
    rw [if_neg (by omega)]
    omega

/-- Whenever the product `total*sz` fits the machine `int`, the summary carries
`total / elapsed` messages per second and `total*sz / 1e6 / elapsed` megabytes per second. -/
theorem summary_of_fits (bits : Nat) (total sz conc : Int) (elapsed : ℚ) (ds : List Duration)
    (hlo : -(2 ^ bits : Int) ≤ 2 * (total * sz)) (hhi : 2 * (total * sz) < 2 ^ bits) :
    (summary bits total sz conc elapsed ds).throughput = (total : ℚ) / elapsed ∧
    (summary bits total sz conc elapsed ds).bandwidth
      = ((total : ℚ) * (sz : ℚ)) / 1000000 / elapsed := by
  refine ⟨rfl, ?_⟩
  unfold summary
  simp only [wrapInt_of_fits bits (total * sz) hlo hhi]
  rw [Int.cast_mul]

/-- C9, at the inputs where the code leaves the stated formula. With a 64-bit `int`,
`total = 2^32` and `sz = 2^31` (two seconds elapsed): the product `total*sz` wraps to
`-2^63`, so the reported bandwidth is `-2^63 / 1e6 / 2`, not `2^63 / 1e6 / 2`. With a 32-bit
`int`, `total = 100000` and `sz = 32768`: the product wraps to `-1018167296`. The throughput
is `total / elapsed` in both, and for `total = 1000`, `sz = 100`, two seconds, the summary
carries 500 msg/s and 0.05 MB/s. -/
theorem bandwidth_overflow :
    (summary 64 4294967296 2147483648 64 2 []).bandwidth
      = -(9223372036854775808 : ℚ) / 1000000 / 2 ∧
    (summary 64 4294967296 2147483648 64 2 []).bandwidth
      ≠ ((4294967296 : ℚ) * 2147483648) / 1000000 / 2 ∧
    (summary 64 4294967296 2147483648 64 2 []).throughput = (4294967296 : ℚ) / 2 ∧
    (summary 32 100000 32768 64 2 []).bandwidth = -(1018167296 : ℚ) / 1000000 / 2 ∧
    (summary 32 100000 32768 64 2 []).bandwidth ≠ ((100000 : ℚ) * 32768) / 1000000 / 2 ∧
    (summary 64 1000 100 64 2 []).throughput = 500 ∧
    (summary 64 1000 100 64 2 []).bandwidth = 5 / 100 := by
  have w64 : wrapInt 64 (4294967296 * 2147483648) = -9223372036854775808 := by decide
  have w32 : wrapInt 32 (100000 * 32768) = -1018167296 := by decide
  have w0 : wrapInt 64 (1000 * 100) = 100000 := by decide
  unfold summary
  simp only [w64, w32, w0]
  norm_num

/-! ## Set-up: when a run function reaches the shared run body -/

theorem runKafka_cases (env : Env) (bootstrap topic : String)
    (total sz conc partitions : Int) :
    ((bootstrap ≠ "" ∧ ∃ b, payload env sz = .ok b) ∧
      runKafka env bootstrap topic total sz conc partitions = bench env total sz conc) ∨
    (¬ (bootstrap ≠ "" ∧ ∃ b, payload env sz = .ok b) ∧
      ∃ f, runKafka env bootstrap topic total sz conc partitions = abort f) := by
  unfold runKafka
  by_cases h1 : bootstrap = ""
  · right; rw [if_pos h1]; exact ⟨fun h => h.1 h1, _, rfl⟩
  · rw [if_neg h1]
    cases hp : payload env sz with
    | error f => right; exact ⟨fun h => (by obtain ⟨_, b, hb⟩ := h; cases hb), f, rfl⟩
    | ok b => left; exact ⟨⟨h1, b, rfl⟩, rfl⟩

theorem runNATS_cases (env : Env) (servers subj : String) (total sz conc replicas : Int) :
    ((servers ≠ "" ∧ env.connectErr = false ∧ 1 ≤ wrapInt env.intBits (conc * 2) ∧
        env.sessionErr = false ∧ ∃ b, payload env sz = .ok b) ∧
      runNATS env servers subj total sz conc replicas = bench env total sz conc) ∨
    (¬ (servers ≠ "" ∧ env.connectErr = false ∧ 1 ≤ wrapInt env.intBits (conc * 2) ∧
        env.sessionErr = false ∧ ∃ b, payload env sz = .ok b) ∧
      ∃ f, runNATS env servers subj total sz conc replicas = abort f) := by
  unfold runNATS
  by_cases h1 : servers = ""
  · right; rw [if_pos h1]; exact ⟨fun h => h.1 h1, _, rfl⟩
  rw [if_neg h1]
  by_cases h2 : env.connectErr = true
  · right; rw [if_pos h2]
    exact ⟨fun h => by rw [h.2.1] at h2; exact absurd h2 (by decide), _, rfl⟩
  rw [if_neg h2]
  by_cases h3 : wrapInt env.intBits (conc * 2) < 1
  · right; rw [if_pos h3]
    exact ⟨fun h => by have := h.2.2.1; omega, _, rfl⟩
  rw [if_neg h3]
  by_cases h4 : env.sessionErr = true
  · right; rw [if_pos h4]
    exact ⟨fun h => by rw [h.2.2.2.1] at h4; exact absurd h4 (by decide), _, rfl⟩
  rw [if_neg h4]
  cases hp : payload env sz with
  | error f =>
    right
    exact ⟨fun h => (by obtain ⟨_, _, _, _, b, hb⟩ := h; cases hb), f, rfl⟩
  | ok b =>
    left
    exact ⟨⟨h1, by simpa using h2, by omega, by simpa using h4, b, rfl⟩, rfl⟩

theorem runPulsar_cases (env : Env) (serviceURL topic : String) (total sz conc : Int)
    (tenant ns : String) :
    ((serviceURL ≠ "" ∧ env.connectErr = false ∧ env.sessionErr = false ∧
        ∃ b, payload env sz = .ok b) ∧
      runPulsar env serviceURL topic total sz conc tenant ns = bench env total sz conc) ∨
    (¬ (serviceURL ≠ "" ∧ env.connectErr = false ∧ env.sessionErr = false ∧
        ∃ b, payload env sz = .ok b) ∧
      ∃ f, runPulsar env serviceURL topic total sz conc tenant ns = abort f) := by
  unfold runPulsar
  by_cases h1 : serviceURL = ""
  · right; rw [if_pos h1]; exact ⟨fun h => h.1 h1, _, rfl⟩
  rw [if_neg h1]
  by_cases h2 : env.connectErr = true
  · right; rw [if_pos h2]
    exact ⟨fun h => by rw [h.2.1] at h2; exact absurd h2 (by decide), _, rfl⟩
  rw [if_neg h2]
  by_cases h4 : env.sessionErr = true
  · right; rw [if_pos h4]
    exact ⟨fun h => by rw [h.2.2.1] at h4; exact absurd h4 (by decide), _, rfl⟩
  rw [if_neg h4]
  cases hp : payload env sz with
  | error f =>
    right
    exact ⟨fun h => (by obtain ⟨_, _, _, b, hb⟩ := h; cases hb), f, rfl⟩
  | ok b =>
    left
    exact ⟨⟨h1, by simpa using h2, by simpa using h4, b, rfl⟩, rfl⟩

theorem bench_nonpos (env : Env) (total sz conc : Int) (hc : conc ≤ 0) :
    (bench env total sz conc).st = State.init env.startNs env.exitDelay ∧
    (conc = 0 → (bench env total sz conc).exit = .fatal .divideByZero) ∧
    (conc < 0 → (bench env total sz conc).exit = .report (summary env.intBits total sz conc
      (((env.endNs - env.startNs : Int) : ℚ) / 1000000000) [])) := by
  have hs : spawn total conc = [] := by
    unfold spawn
    rw [Int.toNat_of_nonpos hc]; rfl
  by_cases h0 : conc = 0
  · subst h0
    refine ⟨rfl, fun _ => rfl, fun h => absurd h (by decide)⟩
  · have hb : bench env total sz conc =
        { st := State.init env.startNs env.exitDelay,
          exit := .report (summary env.intBits total sz conc
            (((env.endNs - env.startNs : Int) : ℚ) / 1000000000) []) } := by
      unfold bench
      rw [if_neg h0]
      simp only [hs]
      rfl
    rw [hb]
    exact ⟨rfl, fun h => absurd h h0, fun _ => rfl⟩

theorem nonpos_of_shape (env : Env) (total sz conc : Int) (hc : conc ≤ 0) (r : RunEnd)
    (h : (∃ f, r = abort f) ∨ r = bench env total sz conc) :
    r.st.ws = [] ∧ r.st.log = [] ∧ r.st.m.durations = [] ∧
    (conc = 0 → r.exit.isReport = false) := by
  rcases h with ⟨f, rfl⟩ | rfl
  · exact ⟨rfl, rfl, rfl, fun _ => rfl⟩
  · obtain ⟨hst, h0, _⟩ := bench_nonpos env total sz conc hc
    rw [hst]
    exact ⟨rfl, rfl, rfl, fun h => by rw [h0 h]; rfl⟩

theorem report_of_neg (env : Env) (total sz conc : Int) (hc : conc < 0) :
    ∃ rep, (bench env total sz conc).exit = .report rep ∧ rep.p50 = 0 ∧ rep.p95 = 0 :=
  ⟨_, (bench_nonpos env total sz conc (by omega)).2.2 hc, rfl, rfl⟩

/-- C6, as stated, fails: with `-concurrency -1` (and the other flags at their defaults) a
Kafka or Pulsar run against a reachable backend signals no configuration error; the run
function returns normally after printing a summary. -/
theorem config_error_refuted :
    (-1 : Int) ≤ 0 ∧
    (runKafka envOk "host:9092" "bench" 100000 512 (-1) 6).exit.isReport = true ∧
    (runPulsar envOk "pulsar://host:6650" "bench" 100000 512 (-1) "public"
      "default").exit.isReport = true := by
  decide

/-- C6, amended. For every workerCount <= 0 and every total, in each of the three run
functions no worker is spawned, no publish call is issued and nothing is recorded, and with
workerCount = 0 no summary is printed. `runNATS` ends at set-up with no summary whenever
`conc * 2` does not overflow: `PublishAsyncMaxPending(conc * 2)` is refused and the error
goes to `log.Fatal`. `runKafka` and `runPulsar` never look at the value: with
workerCount = 0 a run that passes set-up dies on the integer division `total / conc`; with
workerCount < 0 a run that passes set-up prints a summary whose p50 and p95 are 0. -/
theorem nonpositive_concurrency (env : Env) (servers topic tenant ns : String)
    (total sz conc replicas partitions : Int) (hc : conc ≤ 0) :
    (∀ r ∈ [runNATS env servers topic total sz conc replicas,
            runKafka env servers topic total sz conc partitions,
            runPulsar env servers topic total sz conc tenant ns],
      r.st.ws = [] ∧ r.st.log = [] ∧ r.st.m.durations = [] ∧
      (conc = 0 → r.exit.isReport = false)) ∧
    (-(2 ^ env.intBits : Int) ≤ 4 * conc →
      (runNATS env servers topic total sz conc replicas).exit.isReport = false ∧
      (servers ≠ "" → env.connectErr = false →
        (runNATS env servers topic total sz conc replicas).exit = .fatal .setupError)) ∧
    (servers ≠ "" → (∃ b, payload env sz = .ok b) →
      (conc = 0 →
        (runKafka env servers topic total sz conc partitions).exit = .fatal .divideByZero) ∧
      (conc < 0 → ∃ rep,
        (runKafka env servers topic total sz conc partitions).exit = .report rep ∧
        rep.p50 = 0 ∧ rep.p95 = 0)) ∧
    (servers ≠ "" → env.connectErr = false → env.sessionErr = false →
      (∃ b, payload env sz = .ok b) →
      (conc = 0 →
        (runPulsar env servers topic total sz conc tenant ns).exit = .fatal .divideByZero) ∧
      (conc < 0 → ∃ rep,
        (runPulsar env servers topic total sz conc tenant ns).exit = .report rep ∧
        rep.p50 = 0 ∧ rep.p95 = 0)) := by
  obtain ⟨_, h0, _⟩ := bench_nonpos env total sz conc hc
  refine ⟨?_, ?_, ?_, ?_⟩
  · intro r hr
    simp only [List.mem_cons, List.mem_singleton, List.not_mem_nil, or_false] at hr
    rcases hr with rfl | rfl | rfl
    · rcases runNATS_cases env servers topic total sz conc replicas with ⟨_, h⟩ | ⟨_, h⟩
      · exact nonpos_of_shape env total sz conc hc _ (Or.inr h)
      · exact nonpos_of_shape env total sz conc hc _ (Or.inl h)
    · rcases runKafka_cases env servers topic total sz conc partitions with ⟨_, h⟩ | ⟨_, h⟩
      · exact nonpos_of_shape env total sz conc hc _ (Or.inr h)
      · exact nonpos_of_shape env total sz conc hc _ (Or.inl h)
    · rcases runPulsar_cases env servers topic total sz conc tenant ns with ⟨_, h⟩ | ⟨_, h⟩
      · exact nonpos_of_shape env total sz conc hc _ (Or.inr h)
      · exact nonpos_of_shape env total sz conc hc _ (Or.inl h)
  · intro hfit
    have hw : wrapInt env.intBits (conc * 2) < 1 := by
      rw [wrapInt_of_fits env.intBits (conc * 2) (by omega) (by
        have : (0 : Int) < 2 ^ env.intBits := by positivity
        omega)]
      omega
    constructor
    · rcases runNATS_cases env servers topic total sz conc replicas with ⟨hC, _⟩ | ⟨_, f, h⟩
      · have := hC.2.2.1; omega
      · rw [h]; rfl
    · intro hs hce
      unfold runNATS
      rw [if_neg hs, if_neg (by simp [hce]), if_pos hw]
      rfl
  · intro hs hp
    rcases runKafka_cases env servers topic total sz conc partitions with ⟨_, h⟩ | ⟨hn, _⟩
    · rw [h]
      exact ⟨h0, report_of_neg env total sz conc⟩
    · exact absurd ⟨hs, hp⟩ hn
  · intro hs h1 h2 hp
    rcases runPulsar_cases env servers topic total sz conc tenant ns with ⟨_, h⟩ | ⟨hn, _⟩
    · rw [h]
      exact ⟨h0, report_of_neg env total sz conc⟩
    · exact absurd ⟨hs, h1, h2, hp⟩ hn

theorem nonpositive_concurrency_witness :
    (-1 : Int) ≤ 0 ∧
    (runNATS envOk "nats://host:4222" "bench" 100000 512 (-1) 3).exit
      = .fatal .setupError ∧
    (∃ rep, (runKafka envOk "nats://host:4222" "bench" 100000 512 (-1) 6).exit
      = .report rep ∧ rep.p50 = 0 ∧ rep.p95 = 0) ∧
    (∃ rep, (runPulsar envOk "nats://host:4222" "bench" 100000 512 (-1) "public"
      "default").exit = .report rep ∧ rep.p50 = 0 ∧ rep.p95 = 0) :=
  ⟨by decide,
    ((nonpositive_concurrency envOk "nats://host:4222" "bench" "public" "default"
      100000 512 (-1) 3 6 (by decide)).2.1 (by decide)).2 (by decide) rfl,
    ((nonpositive_concurrency envOk "nats://host:4222" "bench" "public" "default"
      100000 512 (-1) 3 6 (by decide)).2.2.1 (by decide) ⟨_, rfl⟩).2 (by decide),
    ((nonpositive_concurrency envOk "nats://host:4222" "bench" "public" "default"
      100000 512 (-1) 3 6 (by decide)).2.2.2 (by decide) rfl rfl ⟨_, rfl⟩).2 (by decide)⟩

theorem fatal_of_shape (env : Env) (total sz conc : Int) (r : RunEnd)
    (h : (∃ f, r = abort f) ∨ r = bench env total sz conc) :
    List.Subperm r.st.m.durations
      ((r.st.log.filter (fun c => !c.res.err)).map (fun c => c.res.took)) ∧
    ((∃ call ∈ r.st.log, call.res.err = true) →
      r.exit = .fatal .publishError ∧ r.exit.isReport = false ∧
      r.st.m.durations.length < r.st.log.length) := by
  rcases h with ⟨f, rfl⟩ | rfl
  · refine ⟨(List.Sublist.refl _).subperm, ?_⟩
    rintro ⟨call, hmem, _⟩
    exact absurd hmem (by simp [abort, State.init])
  · exact ⟨(bench_fatal env total sz conc).1.subperm, (bench_fatal env total sz conc).2.1⟩

theorem report_iff (env : Env) (total sz conc : Int) (C : Prop) (r : RunEnd)
    (h : (C ∧ r = bench env total sz conc) ∨ (¬ C ∧ ∃ f, r = abort f)) :
    r.exit.isReport = true ↔
      C ∧ conc ≠ 0 ∧ ∀ call ∈ r.st.log, call.res.err = false := by
  rcases h with ⟨hC, rfl⟩ | ⟨hC, f, rfl⟩
  · by_cases hc : conc = 0
    · subst hc
      constructor
      · intro h
        have h' : Exit.isReport (.fatal .divideByZero) = true := h
        exact absurd h' (by decide)
      · intro h; exact absurd rfl h.2.1
    · rw [(bench_fatal env total sz conc).2.2 hc]
      exact ⟨fun h => ⟨hC, hc, h⟩, fun h => h.2.2⟩
  · constructor
    · intro h
      have h' : Exit.isReport (.fatal f) = true := h
      exact absurd h' (by simp [Exit.isReport])
    · intro h; exact absurd h.1 hC

/-- C7, as stated, fails. A run stopped before its first publish call (no server address,
or `-concurrency 0`) has no failed call, so every issued call succeeded, yet it yields no
metrics. And a run does not stop at a failed call: in the Kafka run of `envFail`
(10 messages, 4 workers) three calls fail, and after the first of them one more duration is
appended and one more successful call returns. -/
theorem fatal_abort_refuted :
    ¬ ((runKafka envOk "" "bench" 100000 512 64 6).exit.isReport = true ↔
        ∀ call ∈ (runKafka envOk "" "bench" 100000 512 64 6).st.log,
          call.res.err = false) ∧
    ¬ ((runKafka envOk "host:9092" "bench" 100000 512 0 6).exit.isReport = true ↔
        ∀ call ∈ (runKafka envOk "host:9092" "bench" 100000 512 0 6).st.log,
          call.res.err = false) ∧
    (runKafka envFail "host:9092" "bench" 10 512 4 6).st.log.map
        (fun c => (c.worker, c.iter, c.res.err))
      = [(3, 0, false), (2, 0, false), (1, 0, false), (0, 0, false), (3, 1, true),
         (2, 1, true), (1, 1, true), (0, 1, false), (0, 2, false)] ∧
    (runKafka envFail "host:9092" "bench" 10 512 4 6).st.m.durations
      = [300, 200, 100, 0, 1] := by
  decide

/-- C7, amended. For every run configuration, in each of the three run functions and under
any interleaving: the store holds durations of successful calls only, each at most once
per call, so no failed call's duration is recorded; if some issued publish call
failed, the process was killed by `log.Fatal` with no summary (no percentiles, no report)
and the store is shorter than the list of issued calls. The run does not stop at the failed
call itself: the other workers may go on briefly. A run yields metrics if and only if it
passes set-up (server address given, set-up calls and payload succeed), its concurrency is
not 0, and every issued publish call succeeded. -/
theorem fatal_abort (env : Env) (servers topic tenant ns : String)
    (total sz conc replicas partitions : Int) :
    (∀ r ∈ [runNATS env servers topic total sz conc replicas,
            runKafka env servers topic total sz conc partitions,
            runPulsar env servers topic total sz conc tenant ns],
      List.Subperm r.st.m.durations
        ((r.st.log.filter (fun c => !c.res.err)).map (fun c => c.res.took)) ∧
      ((∃ call ∈ r.st.log, call.res.err = true) →
        r.exit = .fatal .publishError ∧ r.exit.isReport = false ∧
        r.st.m.durations.length < r.st.log.length)) ∧
    ((runNATS env servers topic total sz conc replicas).exit.isReport = true ↔
      (servers ≠ "" ∧ env.connectErr = false ∧ 1 ≤ wrapInt env.intBits (conc * 2) ∧
        env.sessionErr = false ∧ ∃ b, payload env sz = .ok b) ∧ conc ≠ 0 ∧
      ∀ call ∈ (runNATS env servers topic total sz conc replicas).st.log,
        call.res.err = false) ∧
    ((runKafka env servers topic total sz conc partitions).exit.isReport = true ↔
      (servers ≠ "" ∧ ∃ b, payload env sz = .ok b) ∧ conc ≠ 0 ∧
      ∀ call ∈ (runKafka env servers topic total sz conc partitions).st.log,
        call.res.err = false) ∧
    ((runPulsar env servers topic total sz conc tenant ns).exit.isReport = true ↔
      (servers ≠ "" ∧ env.connectErr = false ∧ env.sessionErr = false ∧
        ∃ b, payload env sz = .ok b) ∧ conc ≠ 0 ∧
      ∀ call ∈ (runPulsar env servers topic total sz conc tenant ns).st.log,
        call.res.err = false) := by
  have hN := runNATS_cases env servers topic total sz conc replicas
  have hK := runKafka_cases env servers topic total sz conc partitions
  have hP := runPulsar_cases env servers topic total sz conc tenant ns
  refine ⟨?_, report_iff env total sz conc _ _ hN, report_iff env total sz conc _ _ hK,
    report_iff env total sz conc _ _ hP⟩
  intro r hr
  simp only [List.mem_cons, List.mem_singleton, List.not_mem_nil, or_false] at hr
  rcases hr with rfl | rfl | rfl
  · rcases hN with ⟨_, h⟩ | ⟨_, h⟩
    · exact fatal_of_shape env total sz conc _ (Or.inr h)
    · exact fatal_of_shape env total sz conc _ (Or.inl h)
  · rcases hK with ⟨_, h⟩ | ⟨_, h⟩
    · exact fatal_of_shape env total sz conc _ (Or.inr h)
    · exact fatal_of_shape env total sz conc _ (Or.inl h)
  · rcases hP with ⟨_, h⟩ | ⟨_, h⟩
    · exact fatal_of_shape env total sz conc _ (Or.inr h)
    · exact fatal_of_shape env total sz conc _ (Or.inl h)

theorem fatal_abort_witness :
    (∃ call ∈ (runKafka envFail "host:9092" "bench" 10 512 4 6).st.log,
      call.res.err = true) ∧
    ((runKafka envFail "host:9092" "bench" 10 512 4 6).exit = .fatal .publishError ∧
      (runKafka envFail "host:9092" "bench" 10 512 4 6).exit.isReport = false ∧
      (runKafka envFail "host:9092" "bench" 10 512 4 6).st.m.durations.length
        < (runKafka envFail "host:9092" "bench" 10 512 4 6).st.log.length) ∧
    ((runKafka envOk "host:9092" "bench" 10 512 4 6).exit.isReport = true ↔
      ("host:9092" ≠ "" ∧ ∃ b, payload envOk 512 = .ok b) ∧ (4 : Int) ≠ 0 ∧
      ∀ call ∈ (runKafka envOk "host:9092" "bench" 10 512 4 6).st.log,
        call.res.err = false) :=
  ⟨by decide,
    ((fatal_abort envFail "host:9092" "bench" "public" "default" 10 512 4 3 6).1
      (runKafka envFail "host:9092" "bench" 10 512 4 6) (by simp)).2 (by decide),
    (fatal_abort envOk "host:9092" "bench" "public" "default" 10 512 4 3 6).2.2.1⟩

/-! ## Order of the appends -/

theorem pendingDur_live (pub : Nat → Int → PublishResult) (w : Worker)
    (hl : w.live = true) :
    pendingDur pub w = (pub w.i w.j).took :: pendingDur pub { w with j := w.j + 1 } := by
  obtain ⟨h1, h2⟩ := (live_iff w).mp hl
  unfold pendingDur
  have e1 : w.todo = (w.n - (w.j + 1)).toNat + 1 := by
    simp only [Worker.todo, h1, Bool.false_eq_true, if_false]; omega
  have e2 : Worker.todo { w with j := w.j + 1 } = (w.n - (w.j + 1)).toNat := by
    simp [Worker.todo, h1]
  rw [e1, e2, List.range_succ_eq_map, List.map_cons, List.map_map]
  simp only [Nat.cast_zero, add_zero, List.cons.injEq, true_and]
  apply List.map_congr_left
  intro t _
  simp only [Function.comp, Nat.succ_eq_add_one, Nat.cast_add, Nat.cast_one]
  congr 2
  ring

theorem pendingAll_set (pub : Nat → Int → PublishResult) (ws : List Worker) (p : Nat)
    (w : Worker) (h : ws[p]? = some w) (hl : w.live = true) :
    (pendingAll pub ws).Perm
      ((pub w.i w.j).took :: pendingAll pub (ws.set p { w with j := w.j + 1 })) := by
  induction ws generalizing p with
  | nil => simp at h
  | cons c l ih =>
    cases p with
    | zero =>
      simp only [List.getElem?_cons_zero, Option.some.injEq] at h
      subst h
      simp only [pendingAll, List.set_cons_zero, List.flatMap_cons]
      rw [pendingDur_live pub c hl]
      exact List.Perm.refl _
    | succ p =>
      simp only [List.getElem?_cons_succ] at h
      have := ih p h
      simp only [pendingAll, List.set_cons_succ, List.flatMap_cons] at this ⊢
      exact (List.Perm.append_left _ this).trans List.perm_middle

theorem pendingAll_done (pub : Nat → Int → PublishResult) (ws : List Worker)
    (h : work ws = 0) : pendingAll pub ws = [] := by
  induction ws with
  | nil => rfl
  | cons c l ih =>
    unfold work at h ih
    simp only [List.map_cons, List.sum_cons] at h
    have hc : c.todo = 0 := by omega
    simp only [pendingAll, List.flatMap_cons] at ih ⊢
    rw [ih (by omega)]
    simp [pendingDur, hc]

theorem step_pending (pub : Nat → Int → PublishResult) (k : Nat) (s : State)
    (hok : ∀ w j, (pub w j).err = false) (hf : s.fatal = false) :
    (step pub k s).fatal = false ∧
    ((step pub k s).m.durations ++ pendingAll pub (step pub k s).ws).Perm
      (s.m.durations ++ pendingAll pub s.ws) := by
  unfold step
  rw [if_neg (by simp [hf])]
  cases hp : pick s.ws k with
  | none => exact ⟨hf, List.Perm.refl _⟩
  | some pw =>
    obtain ⟨p, w⟩ := pw
    obtain ⟨hget, hlive⟩ := pick_some s.ws k p w hp
    simp only
    rw [if_neg (by simp [hok])]
    refine ⟨hf, ?_⟩
    simp only [metrics.add, List.append_assoc, List.singleton_append]
    exact List.Perm.append_left _ (pendingAll_set pub s.ws p w hget hlive).symm

theorem exec_pending (pub : Nat → Int → PublishResult) (sched : Nat → Nat) (fuel : Nat)
    (s : State) (hok : ∀ w j, (pub w j).err = false) (hf : s.fatal = false) :
    (exec pub sched fuel s).fatal = false ∧
    ((exec pub sched fuel s).m.durations ++ pendingAll pub (exec pub sched fuel s).ws).Perm
      (s.m.durations ++ pendingAll pub s.ws) := by
  induction fuel generalizing s with
  | zero => exact ⟨hf, List.Perm.refl _⟩
  | succ n ih =>
    obtain ⟨h1, h2⟩ := step_pending pub (sched s.log.length) s hok hf
    obtain ⟨h3, h4⟩ := ih (step pub (sched s.log.length) s) h1
    exact ⟨h3, h4.trans h2⟩

/-- When every publish call succeeds, the store at the end of `bench` holds, in some
order, exactly the durations of the calls assigned by the split. -/
theorem bench_durations (env : Env) (total sz conc : Int)
    (hok : ∀ w j, (env.pub w j).err = false) :
    (bench env total sz conc).st.m.durations.Perm
      (if conc = 0 then [] else pendingAll env.pub (spawn total conc)) := by
  by_cases hc : conc = 0
  · subst hc
    exact List.Perm.refl _
  · rw [if_neg hc]
    obtain ⟨hf, hperm⟩ := exec_pending env.pub env.sched (work (spawn total conc))
      { State.init env.startNs env.exitDelay with ws := spawn total conc } hok rfl
    obtain ⟨_, hcase⟩ := bench_cases env total sz conc hc
    rcases hcase with ⟨hd, _⟩ | ⟨_, _, hb⟩
    · unfold benchFinal at hd
      rw [hf] at hd; exact absurd hd (by decide)
    · have hw : work (benchFinal env total conc).ws = 0 := by
        rcases exec_complete env.pub env.sched (work (spawn total conc))
          { State.init env.startNs env.exitDelay with ws := spawn total conc } rfl
          (le_refl _) with hd | ⟨_, hw, _⟩
        · rw [hf] at hd; exact absurd hd (by decide)
        · exact hw
      rw [hb]
      unfold benchFinal at hw ⊢
      rw [pendingAll_done env.pub _ hw, List.append_nil] at hperm
      simpa [State.init] using hperm

/-- C8. The estimator does not depend on the order of the samples: two duration sequences
that are permutations of one another give the same `(p50, p95)`. In particular the order
in which the workers append to the store is immaterial: when every publish call succeeds,
the runs under two interleavings `env.sched` and `sched'` end with stores that are
permutations of one another and report the same percentiles. -/
theorem percentiles_perm (ds ds' : List Duration) (h : ds'.Perm ds) (env : Env)
    (sched' : Nat → Nat) (total sz conc : Int) :
    percentiles ds = percentiles ds' ∧
    ((∀ w j, (env.pub w j).err = false) →
      (bench env total sz conc).st.m.durations.Perm
        (bench { env with sched := sched' } total sz conc).st.m.durations ∧
      percentiles (bench env total sz conc).st.m.durations
        = percentiles (bench { env with sched := sched' } total sz conc).st.m.durations) := by
  have key : ∀ a b : List Duration, b.Perm a → percentiles a = percentiles b := by
    intro a b hab
    by_cases hne : a = []
    · subst hne
      rw [List.perm_nil.mp hab]
    · have hne' : b ≠ [] := by
        intro e; subst e
        exact hne (List.nil_perm.mp hab)
      rw [percentiles_of_sorted a (sortLoop a) hne (sortLoop_sorted a) (sortLoop_perm a),
        percentiles_of_sorted b (sortLoop a) hne' (sortLoop_sorted a)
          ((sortLoop_perm a).trans hab.symm), hab.length_eq]
  refine ⟨key ds ds' h, fun hok => ?_⟩
  have h1 := bench_durations env total sz conc hok
  have h2 := bench_durations { env with sched := sched' } total sz conc hok
  have hp := h1.trans h2.symm
  exact ⟨hp, key _ _ hp.symm⟩

theorem percentiles_perm_witness :
    ([30, 10, 50, 20, 40] : List Duration).Perm [10, 20, 30, 40, 50] ∧
    (∀ w j, (envOk.pub w j).err = false) ∧
    percentiles [10, 20, 30, 40, 50] = percentiles [30, 10, 50, 20, 40] ∧
    (bench envOk 5 512 3).st.m.durations.Perm
      (bench { envOk with sched := fun _ => 0 } 5 512 3).st.m.durations ∧
    percentiles (bench envOk 5 512 3).st.m.durations
      = percentiles (bench { envOk with sched := fun _ => 0 } 5 512 3).st.m.durations :=
  ⟨by decide, fun _ _ => rfl,
    (percentiles_perm [10, 20, 30, 40, 50] [30, 10, 50, 20, 40] (by decide) envOk
      (fun _ => 0) 5 512 3).1,
    (percentiles_perm [10, 20, 30, 40, 50] [30, 10, 50, 20, 40] (by decide) envOk
      (fun _ => 0) 5 512 3).2 (fun _ _ => rfl)⟩

/-! ## Binary64 evaluation of the index -/

theorem roundF64_err (x : ℚ) (hx : x ≠ 0) :
    |roundF64 x - x| ≤ (2 : ℚ) ^ (Int.log 2 |x| - 52) / 2 := by
  unfold roundF64
  rw [if_neg hx]
  simp only
  set u : ℚ := (2 : ℚ) ^ (Int.log 2 |x| - 52) with hu
  have hupos : 0 < u := by positivity
  set q : ℚ := x / u with hq
  have hxq : x = q * u := by rw [hq]; field_simp
  have h1 : (Int.floor q : ℚ) ≤ q := Int.floor_le q
  have h2 : q < (Int.floor q : ℚ) + 1 := Int.lt_floor_add_one q
  have key : ∀ m : Int, |(m : ℚ) - q| ≤ 1 / 2 → |(m : ℚ) * u - x| ≤ u / 2 := by
    intro m hm
    have : (m : ℚ) * u - x = ((m : ℚ) - q) * u := by rw [hxq]; ring
    rw [this, abs_mul, abs_of_pos hupos]
    calc |(m : ℚ) - q| * u ≤ 1 / 2 * u := mul_le_mul_of_nonneg_right hm hupos.le
      _ = u / 2 := by ring
  apply key
  split_ifs with c1 c2 c3
  · rw [abs_le]; constructor <;> linarith
  · rw [abs_le]; push_cast; constructor <;> linarith
  · rw [abs_le]; constructor <;> linarith
  · rw [abs_le]; push_cast; constructor <;> linarith

theorem roundF64_int (n : Int) (hn : |n| < 2 ^ 53) : roundF64 (n : ℚ) = n := by
  by_cases h0 : n = 0
  · subst h0; simp [roundF64]
  have hq0 : (n : ℚ) ≠ 0 := by exact_mod_cast h0
  have habs : (0 : ℚ) < |(n : ℚ)| := abs_pos.mpr hq0
  have hlt : |(n : ℚ)| < ((2 : Nat) : ℚ) ^ (53 : Int) := by
    have : ((|n| : Int) : ℚ) < ((2 ^ 53 : Int) : ℚ) := by exact_mod_cast hn
    rw [Int.cast_abs] at this
    norm_num at this ⊢
    exact this
  have he : Int.log 2 |(n : ℚ)| < 53 :=
    (Int.lt_zpow_iff_log_lt (by norm_num) habs).mp hlt
  have hge : (1 : ℚ) ≤ |(n : ℚ)| := by
    have : (1 : Int) ≤ |n| := Int.one_le_abs h0
    have : ((1 : Int) : ℚ) ≤ ((|n| : Int) : ℚ) := by exact_mod_cast this
    rw [Int.cast_abs] at this
    simpa using this
  have he0 : 0 ≤ Int.log 2 |(n : ℚ)| := by
    rw [Int.log_of_one_le_right _ hge]; positivity
  obtain ⟨k, hk⟩ : ∃ k : Nat, Int.log 2 |(n : ℚ)| - 52 = -(k : Int) :=
    ⟨(52 - Int.log 2 |(n : ℚ)|).toNat, by omega⟩
  unfold roundF64
  rw [if_neg hq0]
  simp only [hk]
  have hu : (2 : ℚ) ^ (-(k : Int)) = ((2 : ℚ) ^ k)⁻¹ := by
    rw [zpow_neg, zpow_natCast]
  rw [hu]
  have hqv : (n : ℚ) / ((2 : ℚ) ^ k)⁻¹ = ((n * 2 ^ k : Int) : ℚ) := by
    push_cast; field_simp
  rw [hqv, Int.floor_intCast, sub_self, if_pos (by norm_num)]
  push_cast
  field_simp

theorem roundF64_div100 (a : Int) (h0 : 0 ≤ a) (hlt : a < 100 * 2 ^ 45) :
    0 ≤ roundF64 ((a : ℚ) / 100) ∧ Int.floor (roundF64 ((a : ℚ) / 100)) = a / 100 := by
  have hdm := Int.ediv_add_emod a 100
  have hr0 : 0 ≤ a % 100 := Int.emod_nonneg _ (by decide)
  have hr1 : a % 100 < 100 := Int.emod_lt_of_pos _ (by decide)
  have hk0 : 0 ≤ a / 100 := Int.ediv_nonneg h0 (by decide)
  have hk1 : a / 100 < 2 ^ 45 := by omega
  have hx : (a : ℚ) / 100 = ((a / 100 : Int) : ℚ) + ((a % 100 : Int) : ℚ) / 100 := by
    have : (a : ℚ) = 100 * ((a / 100 : Int) : ℚ) + ((a % 100 : Int) : ℚ) := by
      exact_mod_cast hdm.symm
    rw [this]; ring
  have hkq : (0 : ℚ) ≤ ((a / 100 : Int) : ℚ) := by exact_mod_cast hk0
  by_cases hr : a % 100 = 0
  · rw [hx, hr, Int.cast_zero, zero_div, add_zero,
      roundF64_int (a / 100) (by rw [abs_of_nonneg hk0]; omega), Int.floor_intCast]
    exact ⟨hkq, rfl⟩
  · have hrq1 : (1 : ℚ) ≤ ((a % 100 : Int) : ℚ) := by
      exact_mod_cast (by omega : (1 : Int) ≤ a % 100)
    have hrq2 : ((a % 100 : Int) : ℚ) ≤ 99 := by
      exact_mod_cast (by omega : a % 100 ≤ (99 : Int))
    have hpos : (0 : ℚ) < (a : ℚ) / 100 := by rw [hx]; positivity
    have hne : (a : ℚ) / 100 ≠ 0 := ne_of_gt hpos
    have hxlt : |(a : ℚ) / 100| < ((2 : Nat) : ℚ) ^ (45 : Int) := by
      rw [abs_of_pos hpos, hx]
      have : ((a / 100 : Int) : ℚ) + 1 ≤ ((2 ^ 45 : Int) : ℚ) := by
        exact_mod_cast (by omega : a / 100 + 1 ≤ (2 : Int) ^ 45)
      norm_num at this ⊢
      linarith
    have he : Int.log 2 |(a : ℚ) / 100| < 45 :=
      (Int.lt_zpow_iff_log_lt (by norm_num) (abs_pos.mpr hne)).mp hxlt
    have hu : (2 : ℚ) ^ (Int.log 2 |(a : ℚ) / 100| - 52) ≤ (2 : ℚ) ^ (-8 : Int) :=
      zpow_le_zpow_right₀ (by norm_num) (by omega)
    have herr := roundF64_err ((a : ℚ) / 100) hne
    have hu8 : (2 : ℚ) ^ (-8 : Int) = 1 / 256 := by norm_num
    rw [hu8] at hu
    rw [abs_le] at herr
    obtain ⟨hlo, hhi⟩ := herr
    have b1 : ((a / 100 : Int) : ℚ) < roundF64 ((a : ℚ) / 100) := by linarith
    have b2 : roundF64 ((a : ℚ) / 100) < ((a / 100 : Int) : ℚ) + 1 := by linarith
    exact ⟨by linarith, Int.floor_eq_iff.mpr ⟨b1.le, b2⟩⟩

theorem rawIdxF64_nat (len p : Nat) (h1 : 1 ≤ len) (hlen : len ≤ 2 ^ 44) (hp : p ≤ 100) :
    rawIdxF64 len (p : ℚ) = (((len - 1) * p / 100 : Nat) : Int) := by
  have hn0 : (0 : Int) ≤ (len : Int) - 1 := by omega
  have hn1 : (len : Int) - 1 < 2 ^ 44 := by
    have : ((len : Nat) : Int) ≤ ((2 ^ 44 : Nat) : Int) := by exact_mod_cast hlen
    norm_num at this ⊢
    omega
  have hp' : ((p : Nat) : Int) ≤ 100 := by exact_mod_cast hp
  have hprod0 : (0 : Int) ≤ ((len : Int) - 1) * (p : Int) := by positivity
  have hprod1 : ((len : Int) - 1) * (p : Int) < 100 * 2 ^ 44 := by
    have : ((len : Int) - 1) * (p : Int) ≤ ((len : Int) - 1) * 100 :=
      mul_le_mul_of_nonneg_left hp' hn0
    omega
  unfold rawIdxF64
  rw [roundF64_int _ (by rw [abs_of_nonneg hn0]; omega)]
  have e : (((len : Int) - 1 : Int) : ℚ) * (p : ℚ)
      = (((((len : Int) - 1) * (p : Int) : Int)) : ℚ) := by push_cast; ring
  rw [e, roundF64_int _ (by rw [abs_of_nonneg hprod0]; omega)]
  obtain ⟨hnn, hfl⟩ := roundF64_div100 _ hprod0 (by omega)
  unfold float64ToInt
  rw [if_pos hnn, hfl]
  have hsub : ((len - 1 : Nat) : Int) = (len : Int) - 1 := by omega
  push_cast
  rw [hsub]

/-- Exact arithmetic is the right reading of the `float64` index computation: for every
slice of at most `2^44` samples (more do not fit a 64-bit address space), evaluating it
with binary64 rounding at every step selects the same two indices, hence the same
percentiles. -/
theorem percentilesF64_eq (ds : List Duration) (hlen : ds.length ≤ 2 ^ 44) :
    percentilesF64 ds = percentiles ds := by
  unfold percentilesF64 percentiles
  by_cases h0 : ds.length = 0
  · rw [if_pos h0, if_pos h0]
  · rw [if_neg h0, if_neg h0]
    have hsl : (sortLoop ds).length = ds.length := (sortLoop_perm ds).length_eq
    have h1 : 1 ≤ ds.length := by omega
    have e50 : rawIdxF64 ds.length 50 = rawIdx ds.length 50 := by
      have a := rawIdxF64_nat ds.length 50 h1 hlen (by decide)
      have b := rawIdx_nat ds.length 50 h1
      rw [← b] at a
      norm_num at a ⊢
      exact a
    have e95 : rawIdxF64 ds.length 95 = rawIdx ds.length 95 := by
      have a := rawIdxF64_nat ds.length 95 h1 hlen (by decide)
      have b := rawIdx_nat ds.length 95 h1
      rw [← b] at a
      norm_num at a ⊢
      exact a
    simp only [hsl, idxF64, idx, e50, e95]

end Bench
